import Mathlib

/-!
Verification of the emailsearch index builder and query engine.

The Go source is shallowly embedded: Go strings become lists of unicode
scalars (`GoStr`), Go maps become association lists with first-match lookup,
goroutine pipelines are collapsed to their deterministic merge phase (the
collector sorts results by filename before the single-threaded merge, so the
arrival order of worker outputs is irrelevant), and the memory-mapped index
file is abstracted to the decoded posting lists it stores.  Unicode character
classification tables (unicode.IsLetter, unicode.IsDigit) are not reproduced;
definitions that need them are parameterised over the two classifier
functions, and concrete evaluations instantiate them with their ASCII
restrictions, which agree with the Go functions on every ASCII input used.
-/

namespace EmailSearch

/-- A Go string, as the sequence of runes obtained by ranging over it.  All
concrete strings in this development are valid UTF-8, where Go's per-byte
lexicographic comparison coincides with code-point lexicographic order. -/
abbrev GoStr := List Char

/-- Go `len(s)`: the byte length of the UTF-8 encoding of a string. -/
def byteLen (s : GoStr) : Nat := (s.map Char.utf8Size).sum

/-- ASCII restriction of the per-rune lowercase mapping used by
strings.ToLower.  It agrees with unicode.ToLower on every ASCII rune. -/
def goToLowerChar (c : Char) : Char :=
  if 'A' ≤ c ∧ c ≤ 'Z' then Char.ofNat (c.toNat + 32) else c

/-- strings.ToLower, restricted to ASCII case folding (see goToLowerChar). -/
def goToLower (s : GoStr) : GoStr := s.map goToLowerChar

/-- strings.Compare: lexicographic comparison.  Go compares the UTF-8 bytes;
for valid UTF-8 that order equals code-point lexicographic order, which is
what this function computes. -/
def goCompare : GoStr → GoStr → Ordering
  | [], [] => .eq
  | [], _ :: _ => .lt
  | _ :: _, [] => .gt
  | a :: as, b :: bs =>
    if a.toNat < b.toNat then .lt
    else if b.toNat < a.toNat then .gt
    else goCompare as bs

/-- The relation `strings.Compare a b <= 0`, under which Go's sort APIs order
strings ascending. -/
def goLe (a b : GoStr) : Prop := goCompare a b ≠ .gt

instance : DecidableRel goLe := fun a b => by
  unfold goLe; infer_instance

/-- First-match lookup in an association list: the model of reading a Go map.
Reachable maps in this development never hold a duplicated key, so the
first-match convention is exact. -/
def ALookup {κ ν : Type} [DecidableEq κ] : List (κ × ν) → κ → Option ν
  | [], _ => none
  | (k, v) :: rest, key => if k = key then some v else ALookup rest key

/-- Replacement of the value stored under an existing key: the model of a Go
map write `m[k] = v` when `k` is already present. -/
def AUpdate {κ ν : Type} [DecidableEq κ] : List (κ × ν) → κ → ν → List (κ × ν)
  | [], _, _ => []
  | (k, v) :: rest, key, nv =>
    if k = key then (key, nv) :: rest else (k, v) :: AUpdate rest key nv

/-- A Go map write `m[k] = v` for a possibly absent key: replace the entry if
present, otherwise append a fresh one. -/
def AInsert {κ ν : Type} [DecidableEq κ] (l : List (κ × ν)) (key : κ) (nv : ν) :
    List (κ × ν) :=
  match ALookup l key with
  | some _ => AUpdate l key nv
  | none => l ++ [(key, nv)]

/-! ## String table (stringset.go, `emailsearch` package) -/

/-- StringSet: the Go struct holds a `map[string]int` and a running counter.
The map is modelled as an association list in insertion order. -/
structure StringSet where
  strings : List (GoStr × Nat)
  index : Nat

/-- NewStringSet. -/
def NewStringSet : StringSet := ⟨[], 0⟩

/-- StringSet.Insert: return the existing index, or assign the next dense
index.  Returns the pair (index, updated set) because the Go method mutates
the receiver. -/
def StringSet.Insert (ss : StringSet) (s : GoStr) : Nat × StringSet :=
  match ALookup ss.strings s with
  | some idx => (idx, ss)
  | none => (ss.index, ⟨ss.strings ++ [(s, ss.index)], ss.index + 1⟩)

/-- StringSet.Index: lookup without insertion (the Go method returns
`(int, bool)`, modelled as an Option). -/
def StringSet.Index (ss : StringSet) (s : GoStr) : Option Nat :=
  ALookup ss.strings s

/-- StringSet.Flatten: place every string at the position equal to its
assigned index, and return the maximum byte length.  The Go loop iterates the
map in random order; both the placement (distinct indices) and the running
maximum are order-independent, so folding in insertion order is faithful. -/
def StringSet.Flatten (ss : StringSet) : List GoStr × Nat :=
  (ss.strings.foldl (fun sa p => sa.set p.2 p.1)
      (List.replicate ss.strings.length []),
    ss.strings.foldl (fun m p => max m (byteLen p.1)) 0)

/-- The sequence of states reached by inserting the words of `ws` in order
into a fresh StringSet. -/
def applyInserts (ws : List GoStr) : StringSet :=
  ws.foldl (fun ss w => (ss.Insert w).2) NewStringSet

/-- Unsigned LEB128 encoding (binary.PutUvarint). -/
def putUvarint (n : Nat) : List Nat :=
  if h : n < 128 then [n]
  else (n % 128 + 128) :: putUvarint (n / 128)
  decreasing_by exact Nat.div_lt_self (by omega) (by omega)

/-- Big-endian byte encoding of a 32-bit value (binary.Write of a uint32). -/
def encode32 (n : Nat) : List Nat :=
  [n / 16777216 % 256, n / 65536 % 256, n / 256 % 256, n % 256]

/-- Big-endian byte encoding of a 16-bit value (binary.Write of a uint16). -/
def encode16 (n : Nat) : List Nat := [n / 256 % 256, n % 256]

/-- UTF-8 encoding of one rune, as byte values. -/
def utf8Bytes (c : Char) : List Nat :=
  let n := c.toNat
  if n < 128 then [n]
  else if n < 2048 then [192 + n / 64, 128 + n % 64]
  else if n < 65536 then [224 + n / 4096, 128 + n / 64 % 64, 128 + n % 64]
  else [240 + n / 262144, 128 + n / 4096 % 64, 128 + n / 64 % 64, 128 + n % 64]

/-- Magic number 'STRS' of the string-table file. -/
def stringSetMagic : Nat := 83 * 16777216 + 84 * 65536 + 82 * 256 + 83

/-- StringSet.Serialize: fail with errTooBigToSave when the flattened set
exceeds the disk format, otherwise produce the file bytes (header, then each
string as a uvarint length followed by its UTF-8 bytes).  Go then hands the
bytes to os.WriteFile, which is environment I/O outside this model; writes
into the in-memory bytes.Buffer cannot fail. -/
def StringSet.Serialize (ss : StringSet) : Except String (List Nat) :=
  let (strings, maxlen) := ss.Flatten
  if strings.length > 4294967295 ∨ maxlen ≥ 65535 then
    .error "the capacity of the stringset exceeds disk format"
  else
    .ok (encode32 stringSetMagic ++ encode32 1 ++ encode32 strings.length ++
      encode16 maxlen ++
      strings.flatMap (fun s => putUvarint (byteLen s) ++ s.flatMap utf8Bytes))

/-! ## Prefix trie (trie.go, `emailsearch` package) -/

/-- A trie node: terminal flag and the children map, modelled as an
association list from rune to child. -/
inductive TrieNode where
  | mk (isWord : Bool) (children : List (Char × TrieNode))

/-- The IsWord field. -/
def TrieNode.isWord : TrieNode → Bool
  | .mk b _ => b

/-- The Children field. -/
def TrieNode.children : TrieNode → List (Char × TrieNode)
  | .mk _ ch => ch

/-- A Trie: root node and the node count `N`. -/
structure Trie where
  Root : TrieNode
  N : Nat

/-- NewTrie: an empty non-terminal root; `N` starts at 1. -/
def NewTrie : Trie := ⟨.mk false [], 1⟩

/-- The recursive descent of Trie.InsertWord from one node, returning the new
subtree and the number of nodes created (the amount Go adds to `t.N`). -/
def insertNode : TrieNode → GoStr → TrieNode × Nat
  | .mk _ ch, [] => (.mk true ch, 0)
  | .mk iw ch, c :: rest =>
    match ALookup ch c with
    | some child =>
      let p := insertNode child rest
      (.mk iw (AUpdate ch c p.1), p.2)
    | none =>
      let p := insertNode (.mk false []) rest
      (.mk iw (ch ++ [(c, p.1)]), p.2 + 1)

/-- Trie.InsertWord. -/
def Trie.InsertWord (t : Trie) (w : GoStr) : Trie :=
  let p := insertNode t.Root w
  ⟨p.1, t.N + p.2⟩

/-- Trie.findNode: descend along the word; none when a child is missing. -/
def findNode : TrieNode → GoStr → Option TrieNode
  | n, [] => some n
  | .mk _ ch, c :: rest =>
    match ALookup ch c with
    | none => none
    | some child => findNode child rest

/-- Trie.Has at a node: the node reached by the word exists and is terminal. -/
def nodeHas (n : TrieNode) (w : GoStr) : Bool :=
  match findNode n w with
  | none => false
  | some m => m.isWord

/-- Trie.Has. -/
def Trie.Has (t : Trie) (w : GoStr) : Bool := nodeHas t.Root w

mutual
/-- Trie.collectWords: the terminal node's word first, then every child's
subtree.  Go iterates the children map in random order; the claims proved
about this function are set-level, so association order is a faithful
deterministic proxy. -/
def collectWords : TrieNode → GoStr → List GoStr
  | .mk iw ch, pfx => (if iw then [pfx] else []) ++ collectChildren ch pfx
/-- The children loop of Trie.collectWords. -/
def collectChildren : List (Char × TrieNode) → GoStr → List GoStr
  | [], _ => []
  | (c, n) :: rest, pfx => collectWords n (pfx ++ [c]) ++ collectChildren rest pfx
end

/-- Trie.WithPrefix: descend to the node at the given string (empty when the
path is missing) and collect every terminal descendant. -/
def Trie.WithPrefix (t : Trie) (p : GoStr) : List GoStr :=
  match findNode t.Root p with
  | none => []
  | some n => collectWords n p

/-- The trie obtained by inserting each word of `ws`, in order, into a fresh
trie. -/
def buildTrie (ws : List GoStr) : Trie := ws.foldl Trie.InsertWord NewTrie

/-! ## Trie serialisation (trie.go: Serialize, serializeNode, DeserializeTrie,
deserializeNode) -/

/-- One token of the serialised stream.  Integer fields written through
binary.Write are modelled byte by byte; a rune written by WriteRune and read
back by ReadRune is kept as one token, abstracting its UTF-8 byte encoding
(WriteRune and ReadRune are exact inverses on every valid scalar, and the
proofs below never read a stream at a misaligned position). -/
inductive Tok where
  | byte (b : Nat)
  | rune (c : Char)
deriving DecidableEq

/-- Children are serialised in ascending rune order
(slices.Sorted(maps.Keys ...)); sorting the entries by key is equivalent
because reachable children maps have distinct keys. -/
def entryLe (a b : Char × TrieNode) : Prop := a.1 ≤ b.1

instance : DecidableRel entryLe := fun a b => by
  unfold entryLe; infer_instance

/-- Magic number 'TRIE' of the trie file. -/
def trieMagic : Nat := 84 * 16777216 + 82 * 65536 + 73 * 256 + 69

mutual
/-- Trie.serializeNode: the terminal flag as one byte, the number of children
as a big-endian uint16 (Go truncates `len(node.Children)` to 16 bits), then
each child in ascending rune order as its rune followed by its subtree. -/
def serializeNode : TrieNode → List Tok
  | .mk iw ch =>
    .byte (if iw then 1 else 0) :: .byte (ch.length % 65536 / 256) ::
      .byte (ch.length % 256) ::
      serializeChildren (List.insertionSort entryLe ch)
  termination_by n => sizeOf n
  decreasing_by
    have hins : ∀ (a : Char × TrieNode) (l : List (Char × TrieNode)),
        sizeOf (List.orderedInsert entryLe a l) = sizeOf (a :: l) := by
      intro a l
      induction l with
      | nil => simp
      | cons b t ih =>
        simp only [List.orderedInsert]
        split
        · rfl
        · simp at ih ⊢; omega
    have hsort : ∀ l : List (Char × TrieNode),
        sizeOf (List.insertionSort entryLe l) = sizeOf l := by
      intro l
      induction l with
      | nil => rfl
      | cons a t ih =>
        simp only [List.insertionSort]
        rw [hins]
        simp [ih]
    simp only [hsort]
    simp
/-- The sorted-children loop of Trie.serializeNode. -/
def serializeChildren : List (Char × TrieNode) → List Tok
  | [] => []
  | (c, n) :: rest => Tok.rune c :: (serializeNode n ++ serializeChildren rest)
  termination_by l => sizeOf l
  decreasing_by all_goals first | (simp; omega) | simp
end

/-- Trie.Serialize: Go panics when `t.N` does not fit a uint32 (modelled as
none); otherwise the header (magic, version 1, node count, each a big-endian
uint32) followed by the root's serialisation. -/
def Trie.Serialize (t : Trie) : Option (List Tok) :=
  if t.N < 4294967296 then
    some ((encode32 trieMagic ++ encode32 1 ++ encode32 t.N).map Tok.byte ++
      serializeNode t.Root)
  else none

/-- One byte read into a bool (binary.Read): nonzero means true.  At end of
stream the read error is ignored and the target keeps its zero value. -/
def readBool : List Tok → Bool × List Tok
  | Tok.byte b :: rest => (b ≠ 0, rest)
  | toks => (false, toks)

/-- Two bytes read into a big-endian uint16; zero at end of stream. -/
def readU16 : List Tok → Nat × List Tok
  | Tok.byte a :: Tok.byte b :: rest => (a * 256 + b, rest)
  | toks => (0, toks)

/-- Four bytes read into a big-endian uint32; zero at end of stream. -/
def readU32 : List Tok → Nat × List Tok
  | Tok.byte a :: Tok.byte b :: Tok.byte c :: Tok.byte d :: rest =>
    (a * 16777216 + b * 65536 + c * 256 + d, rest)
  | toks => (0, toks)

/-- ReadRune; the rune 0 at end of stream (the read error is ignored). -/
def readRune : List Tok → Char × List Tok
  | Tok.rune c :: rest => (c, rest)
  | toks => (Char.ofNat 0, toks)

mutual
/-- Trie.deserializeNode.  The Go recursion needs no fuel (each level reads
its child count from the stream and recursion stops at end of stream); the
fuel argument only satisfies Lean's termination checker and is chosen larger
than the depth of any stream Serialize produces. -/
def deserializeNode : Nat → List Tok → TrieNode × List Tok
  | 0, toks => (.mk false [], toks)
  | fuel + 1, toks =>
    let p1 := readBool toks
    let p2 := readU16 p1.2
    let p3 := deserializeChildren fuel p2.1 p2.2
    (.mk p1.1 p3.1, p3.2)
  termination_by fuel _ => (fuel, 0)
/-- The children loop of Trie.deserializeNode: read a rune, then the child's
subtree, `count` times. -/
def deserializeChildren : Nat → Nat → List Tok → List (Char × TrieNode) × List Tok
  | _, 0, toks => ([], toks)
  | fuel, k + 1, toks =>
    let pc := readRune toks
    let pn := deserializeNode fuel pc.2
    let pr := deserializeChildren fuel k pn.2
    ((pc.1, pn.1) :: pr.1, pr.2)
  termination_by fuel k _ => (fuel, k + 1)
end

/-- DeserializeTrie: check magic and version, then rebuild the root;
`N` is taken from the header. -/
def DeserializeTrie (toks : List Tok) : Option Trie :=
  let pm := readU32 toks
  let pv := readU32 pm.2
  let pn := readU32 pv.2
  if pm.1 = trieMagic ∧ pv.1 = 1 then
    some ⟨(deserializeNode (toks.length + 1) pn.2).1, pn.1⟩
  else none

/-! ## Tokeniser and stop words (builder.go: splitText, isStopWord,
computeFileIndex) -/

/-- A word span: start and end byte offsets into the text. -/
structure Span where
  start : Nat
  stop : Nat
deriving DecidableEq, Repr

/-- The loop of splitText.  `i` is the byte offset of the current rune (the
index variable of Go's range over a string) and `st` the pending span start
(`-1` in Go is `none` here).  The branch structure is copied verbatim from
the source: a rune that is a letter or digit opens a span when none is
pending, and a pending span is closed before a rune `r` exactly when
`!(isLetter r && !isDigit r)`. -/
def splitTextAux (isLetter isDigit : Char → Bool) :
    List Char → Nat → Option Nat → List Span
  | [], i, st =>
    match st with
    | none => []
    | some s => [⟨s, i⟩]
  | c :: rest, i, st =>
    match st with
    | none =>
      if isLetter c || isDigit c then
        splitTextAux isLetter isDigit rest (i + c.utf8Size) (some i)
      else
        splitTextAux isLetter isDigit rest (i + c.utf8Size) none
    | some s =>
      if !(isLetter c && !isDigit c) then
        ⟨s, i⟩ :: splitTextAux isLetter isDigit rest (i + c.utf8Size) none
      else
        splitTextAux isLetter isDigit rest (i + c.utf8Size) (some s)

/-- splitText: the full sequence of spans the iterator yields (no consumer in
the source stops early). -/
def splitText (isLetter isDigit : Char → Bool) (text : List Char) : List Span :=
  splitTextAux isLetter isDigit text 0 none

/-- ASCII restriction of unicode.IsLetter; agrees with it on ASCII runes. -/
def asciiIsLetter (c : Char) : Bool :=
  ('a' ≤ c && c ≤ 'z') || ('A' ≤ c && c ≤ 'Z')

/-- ASCII restriction of unicode.IsDigit; agrees with it on ASCII runes. -/
def asciiIsDigit (c : Char) : Bool := '0' ≤ c && c ≤ '9'

/-- The Go byte-slice `s[start:end]`: the runes whose encoding lies within the
byte range.  The spans produced by splitText always fall on rune boundaries,
where this definition matches Go exactly. -/
def sliceBytes : List Char → Nat → Nat → Nat → GoStr
  | [], _, _, _ => []
  | c :: rest, pos, start, stop =>
    (if start ≤ pos ∧ pos + c.utf8Size ≤ stop then [c] else []) ++
      sliceBytes rest (pos + c.utf8Size) start stop

/-- The twenty stop words of isStopWord. -/
def stopWords : List GoStr :=
  ["the".data, "be".data, "to".data, "of".data, "and".data,
   "a".data, "in".data, "that".data, "have".data, "i".data,
   "it".data, "for".data, "not".data, "on".data, "with".data,
   "he".data, "as".data, "you".data, "do".data, "at".data]

/-- isStopWord: membership of the lower-cased word in the stop-word set. -/
def isStopWord (s : GoStr) : Bool :=
  stopWords.contains (goToLower s)

/-- The loop body of IndexBuilder.computeFileIndex: slice the span's word
out of the body, drop it when its byte length is below 3 or it is a stop
word, and otherwise append the span's start offset to the posting list of
the lower-cased word. -/
def cfiStep (content : List Char) (index : List (GoStr × List Nat))
    (span : Span) : List (GoStr × List Nat) :=
  let word := sliceBytes content 0 span.start span.stop
  let txt := goToLower word
  if byteLen word < 3 then index
  else if isStopWord word then index
  else
    match ALookup index txt with
    | none => index ++ [(txt, [span.start])]
    | some offs => AUpdate index txt (offs ++ [span.start])

/-- IndexBuilder.computeFileIndex: fold cfiStep over the spans of the body. -/
def computeFileIndex (isLetter isDigit : Char → Bool) (content : List Char) :
    List (GoStr × List Nat) :=
  (splitText isLetter isDigit content).foldl (cfiStep content) []

/-! ## Ingestion and merge (builder.go: InjestFiles, MergeInFileIndex,
writeCatalog) -/

/-- One posting: the filename's string-table index and the word's offsets in
that file. -/
structure Match where
  FilenameStringIndex : Nat
  Offsets : List Nat
deriving DecidableEq, Repr

/-- The builder state the merge phase works on. -/
structure BuilderState where
  filenames : StringSet
  words : StringSet
  wordIndex : List (GoStr × List Match)
  nDocs : Nat

/-- The initial builder state (IndexBuilder.Init). -/
def initBuilder : BuilderState := ⟨NewStringSet, NewStringSet, [], 0⟩

/-- Per-file word entries are merged in lexicographic word order
(slices.Sorted over the map keys); sorting the entries by key is equivalent
because computeFileIndex never duplicates a key. -/
def wordEntryLe (a b : GoStr × List Nat) : Prop := goLe a.1 b.1

instance : DecidableRel wordEntryLe := fun a b => by
  unfold wordEntryLe; infer_instance

/-- The loop body of IndexBuilder.MergeInFileIndex for one word of the file:
insert the word into the word table and append a match carrying the file's
index to the word's posting list. -/
def mergeStep (fidx : Nat) (st : BuilderState) (e : GoStr × List Nat) :
    BuilderState :=
  { st with
    words := (st.words.Insert e.1).2
    wordIndex :=
      match ALookup st.wordIndex e.1 with
      | none => st.wordIndex ++ [(e.1, [⟨fidx, e.2⟩])]
      | some ms => AUpdate st.wordIndex e.1 (ms ++ [⟨fidx, e.2⟩]) }

/-- IndexBuilder.MergeInFileIndex: insert the filename (receiving its dense
index), then for each word of the file in lexicographic order insert the word
into the word table and append a match to the word's posting list. -/
def MergeInFileIndex (st : BuilderState) (fileIdx : List (GoStr × List Nat))
    (filename : GoStr) : BuilderState :=
  let p := st.filenames.Insert filename
  (List.insertionSort wordEntryLe fileIdx).foldl (mergeStep p.1)
    { st with filenames := p.2 }

/-- What the ingestion worker learns about one input file. -/
inductive FileContent where
  /-- os.Open failed. -/
  | openFail
  /-- The file opened but mail.ReadMessage (or the body read) failed. -/
  | parseFail
  /-- The message parsed; its body, and the length of the gzip stream the
  worker produced for it (the compressed bytes themselves are opaque here;
  only their length reaches the catalog directory). -/
  | body (content : List Char) (gzipLen : Nat)

/-- The worker output for one file (the injestedFile struct).  When os.Open
fails the error is recorded; when mail.ReadMessage or the body read fails,
the `err` variable holding that failure is scoped to its if statement, so the
outer `outData.Err = err` stores nil — the source treats such a file as a
success with no index, no compressed body and length zero. -/
structure InjestedFile where
  Filename : GoStr
  Index : List (GoStr × List Nat)
  Len : Nat
  CompressedLen : Nat
  Err : Bool

/-- The per-file work of an ingestion worker (the goroutine body in
InjestFiles). -/
def injestWorker (isLetter isDigit : Char → Bool) (filename : GoStr)
    (fc : FileContent) : InjestedFile :=
  match fc with
  | .openFail => ⟨filename, [], 0, 0, true⟩
  | .parseFail => ⟨filename, [], 0, 0, false⟩
  | .body content gzipLen =>
    ⟨filename, computeFileIndex isLetter isDigit content,
      byteLen content, gzipLen, false⟩

/-- The collector sorts worker results by filename before merging. -/
def fileLe (a b : InjestedFile) : Prop := goLe a.Filename b.Filename

instance : DecidableRel fileLe := fun a b => by
  unfold fileLe; infer_instance

/-- The merge loop body of InjestFiles for one collected result: a result
whose Err is set is only logged; otherwise its per-file index is merged and
nDocs is incremented. -/
def injestMergeStep (st : BuilderState) (r : InjestedFile) : BuilderState :=
  if r.Err then st
  else { MergeInFileIndex st r.Index r.Filename with
          nDocs := (MergeInFileIndex st r.Index r.Filename).nDocs + 1 }

/-- InjestFiles after the workers have run: sort the results by filename,
then merge serially, skipping results whose Err is set (such files are only
logged) and counting the merged ones in nDocs.  Worker arrival order is
irrelevant once sorted, so the workers are modelled by mapping over the input
in order.  Returns the final state and the sorted result list the builder
retains for writeCatalog. -/
def InjestFiles (isLetter isDigit : Char → Bool)
    (files : List (GoStr × FileContent)) : BuilderState × List InjestedFile :=
  let injested := List.insertionSort fileLe
    (files.map fun f => injestWorker isLetter isDigit f.1 f.2)
  (injested.foldl injestMergeStep initBuilder, injested)

/-- The directory of writeCatalog: a table of (offset, length) pairs, one per
injested item, initialised to zeroes.  Walking the sorted items, an item with
an error is skipped; otherwise its filename's table index receives the
running byte offset and the uncompressed length, and the offset advances by
the compressed length.  The initial offset is the 12-byte header plus 8 bytes
of directory per item.  IndexBuilder ignores the ok flag of filenames.Index,
so a missing filename reads index zero. -/
def catalogOfflens (st : BuilderState) (injested : List InjestedFile) :
    List (Nat × Nat) :=
  (injested.foldl
    (fun acc r =>
      if r.Err then acc
      else
        let fidx := (st.filenames.Index r.Filename).getD 0
        (acc.1.set fidx (acc.2, r.Len), acc.2 + r.CompressedLen))
    (List.replicate injested.length (0, 0), 12 + injested.length * 8)).1

/-! ## Query engine (index.go, `emailsearch` package: QueryIndex,
intersectWordResults) -/

/-- One query hit: the original query word and a byte offset. -/
structure QueryWordMatch where
  Word : GoStr
  Offset : Nat
deriving DecidableEq, Repr

/-- One per-file result row. -/
structure QueryResults where
  Filename : GoStr
  WordMatches : List QueryWordMatch
  FilenameIndex : Nat
deriving DecidableEq, Repr

/-- A loaded index.  `filenames` is the filename string table; `vocab` is the
composite of the wordsToOffsets map and the memory-mapped posting lists it
points into: each vocabulary word maps to its decoded match list of
(filename index, offsets).  A well-formed index is assumed, so every stored
offset is valid and nonzero and the varint reads that QueryIndex performs
cannot fail; the I/O error paths of the source are therefore unreachable. -/
structure Index where
  filenames : List GoStr
  vocab : List (GoStr × List (Nat × List Nat))

/-- The population of one query word's result map: for each match and each of
its offsets, append (original query word, offset) to the file's entry. -/
def wordMap (query : GoStr) (ms : List (Nat × List Nat)) :
    List (Nat × List QueryWordMatch) :=
  ms.foldl
    (fun acc m =>
      m.2.foldl
        (fun acc off =>
          match ALookup acc m.1 with
          | none => acc ++ [(m.1, [⟨query, off⟩])]
          | some vs => AUpdate acc m.1 (vs ++ [⟨query, off⟩]))
        acc)
    []

/-- The per-word loop of QueryIndex.  A stop word is skipped, leaving its
pre-allocated map empty.  A word absent from the vocabulary breaks out of
the loop, leaving its own and every later map empty. -/
def buildQwres (idx : Index) : List GoStr → List (List (Nat × List QueryWordMatch))
  | [] => []
  | q :: rest =>
    let lq := goToLower q
    if isStopWord lq then [] :: buildQwres idx rest
    else
      match ALookup idx.vocab lq with
      | none => [] :: rest.map (fun _ => [])
      | some ms => wordMap q ms :: buildQwres idx rest

/-- The inner loop of intersectWordResults for one key of the first map:
concatenate the key's records from every later map, or fail as soon as one
map misses the key. -/
def gatherKey (k : Nat) (v : List QueryWordMatch) :
    List (List (Nat × List QueryWordMatch)) → Option (List QueryWordMatch)
  | [] => some v
  | m :: rest =>
    match ALookup m k with
    | some vs => gatherKey k (v ++ vs) rest
    | none => none

/-- intersectWordResults: keys of the first map that appear in every map,
each with the concatenation of its records.  (The Go iteration over the first
map is in random order; the callers sort, and the properties proved are
order-robust.) -/
def intersectWordResults (results : List (List (Nat × List QueryWordMatch))) :
    List (Nat × List QueryWordMatch) :=
  match results with
  | [] => []
  | first :: rest =>
    first.filterMap (fun e => (gatherKey e.1 e.2 rest).map fun v => (e.1, v))

/-- The comparator of the per-file sort: ascending offset
(the SortFunc comparator returns at most 0). -/
def offsetLe (a b : QueryWordMatch) : Prop := a.Offset ≤ b.Offset

instance : DecidableRel offsetLe := fun a b => by
  unfold offsetLe; infer_instance

/-- The comparator of the final sort: descending match count, ties broken by
ascending filename (the SortFunc comparator returns at most 0). -/
def resultLe (a b : QueryResults) : Prop :=
  b.WordMatches.length < a.WordMatches.length ∨
    (a.WordMatches.length = b.WordMatches.length ∧ goLe a.Filename b.Filename)

instance : DecidableRel resultLe := fun a b => by
  unfold resultLe; infer_instance

/-- Index.QueryIndex.  Every error return of the source is an I/O failure
reading the mapped index, unreachable for the well-formed indexes modelled
here, so the result is always `Except.ok`.  (Go returns an empty non-nil
slice of results in the intersection path, and a nil error.) -/
def Index.QueryIndex (idx : Index) (querywords : List GoStr) :
    Except String (List QueryResults) :=
  let qwres := buildQwres idx querywords
  let searchresults := intersectWordResults qwres
  let sorted := searchresults.map
    (fun e => (e.1, List.insertionSort offsetLe e.2))
  let results := sorted.map
    (fun e => QueryResults.mk (idx.filenames.getD e.1 []) e.2 e.1)
  .ok (List.insertionSort resultLe results)

mutual
/-- Well-formedness of a trie node: the children map never repeats a key.
Every trie reachable through NewTrie and InsertWord satisfies it. -/
def wfNode : TrieNode → Prop
  | .mk _ ch => (ch.map Prod.fst).Nodup ∧ wfChildren ch
/-- Well-formedness of every node in a children list. -/
def wfChildren : List (Char × TrieNode) → Prop
  | [] => True
  | (_, n) :: rest => wfNode n ∧ wfChildren rest
end

mutual
/-- The children count written by serializeNode is a uint16, so a trie
round-trips only when every node has fewer than 2^16 children.  Stated as a
Bool so concrete instances evaluate. -/
def boundNode : TrieNode → Bool
  | .mk _ ch => decide (ch.length < 65536) && boundChildren ch
/-- boundNode for every node of a children list. -/
def boundChildren : List (Char × TrieNode) → Bool
  | [] => true
  | (_, n) :: rest => boundNode n && boundChildren rest
end

/-- A set of 2^16 distinct runes (the scalar values below the surrogate range
and a tail above it), used to exhibit a node with 65536 children. -/
def bigChars : List Char :=
  (List.range 55296).map Char.ofNat ++
    (List.range 10240).map (fun i => Char.ofNat (57344 + i))

/-- One single-rune word per element of bigChars: inserting all of them gives
a root with 65536 children, whose serialised child count wraps to 0. -/
def bigWords : List GoStr := bigChars.map (fun c => [c])

/-- A small loaded index used for concrete evaluations: one file "f", one
vocabulary word "hello" occurring at offset 0 of that file. -/
def demoIndex : Index := ⟨["f".data], [("hello".data, [(0, [0])])]⟩

/-- A small build input used for concrete evaluations: one file that fails to
open, one whose message fails to parse, one that ingests normally. -/
def demoCorpus : List (GoStr × FileContent) :=
  [("a.email".data, .openFail), ("b.email".data, .parseFail),
   ("c.email".data, .body "hello world".data 7)]

/-- The statement of the round-trip at one fuel level, for nodes. -/
def NodeRT (fuel : Nat) : Prop :=
  ∀ (n : TrieNode) (rest : List Tok), wfNode n → boundNode n = true →
    (serializeNode n).length < fuel →
    ∃ n', deserializeNode fuel (serializeNode n ++ rest) = (n', rest) ∧
      ∀ w, nodeHas n' w = nodeHas n w

/-- The statement of the round-trip at one fuel level, for children lists. -/
def ChildRT (fuel : Nat) : Prop :=
  ∀ (chs : List (Char × TrieNode)) (rest : List Tok), wfChildren chs →
    boundChildren chs = true →
    (serializeChildren chs).length < fuel →
    ∃ chs', deserializeChildren fuel chs.length
        (serializeChildren chs ++ rest) = (chs', rest) ∧
      List.Forall₂
        (fun p q => p.1 = q.1 ∧ ∀ w, nodeHas q.2 w = nodeHas p.2 w) chs chs'

/-- The reachable-state invariant of a StringSet: the stored indices are
exactly 0, 1, ... in insertion order, and the counter is the map's size. -/
def SSInv (ss : StringSet) : Prop :=
  ss.strings.map Prod.snd = List.range ss.strings.length ∧
    ss.index = ss.strings.length

/-- The match-list order of claim C6: strictly ascending filename index. -/
def matchLt (a b : Match) : Prop :=
  a.FilenameStringIndex < b.FilenameStringIndex

/-- The builder-state invariant carried across merged files. -/
def BInv (st : BuilderState) : Prop :=
  SSInv st.filenames ∧
  ∀ p ∈ st.wordIndex, List.Pairwise matchLt p.2 ∧
    ∀ m ∈ p.2, m.FilenameStringIndex < st.filenames.strings.length ∧
      List.Pairwise (· < ·) m.Offsets


/-! # Theorems -/

/-! ## Association list lemmas -/

theorem ALookup_append_some {κ ν : Type} [DecidableEq κ] {l : List (κ × ν)}
    (l2 : List (κ × ν)) {k : κ} {v : ν} (h : ALookup l k = some v) :
    ALookup (l ++ l2) k = some v := by
  induction l with
  | nil => simp [ALookup] at h
  | cons p rest ih =>
    obtain ⟨pk, pv⟩ := p
    simp only [ALookup, List.cons_append] at h ⊢
    split at h
    · simpa [*] using h
    · simp [*, ih h]

theorem ALookup_append_none {κ ν : Type} [DecidableEq κ] {l : List (κ × ν)}
    (l2 : List (κ × ν)) {k : κ} (h : ALookup l k = none) :
    ALookup (l ++ l2) k = ALookup l2 k := by
  induction l with
  | nil => simp
  | cons p rest ih =>
    obtain ⟨pk, pv⟩ := p
    simp only [ALookup, List.cons_append] at h ⊢
    split at h
    · exact absurd h (by simp)
    · simp [*, ih h]

theorem ALookup_mem {κ ν : Type} [DecidableEq κ] {l : List (κ × ν)} {k : κ}
    {v : ν} (h : ALookup l k = some v) : (k, v) ∈ l := by
  induction l with
  | nil => simp [ALookup] at h
  | cons p rest ih =>
    obtain ⟨pk, pv⟩ := p
    simp only [ALookup] at h
    split at h
    · obtain rfl := (Option.some_inj.mp h)
      simp_all
    · simp [ih h]

theorem ALookup_eq_none_iff {κ ν : Type} [DecidableEq κ] {l : List (κ × ν)}
    {k : κ} : ALookup l k = none ↔ k ∉ l.map Prod.fst := by
  induction l with
  | nil => simp [ALookup]
  | cons p rest ih =>
    obtain ⟨pk, pv⟩ := p
    simp only [ALookup, List.map_cons, List.mem_cons]
    split
    · simp_all
    · simp_all [eq_comm]

theorem ALookup_AUpdate_self {κ ν : Type} [DecidableEq κ] {l : List (κ × ν)}
    {k : κ} {w : ν} (v : ν) (h : ALookup l k = some w) :
    ALookup (AUpdate l k v) k = some v := by
  induction l with
  | nil => simp [ALookup] at h
  | cons p rest ih =>
    obtain ⟨pk, pv⟩ := p
    simp only [ALookup, AUpdate] at h ⊢
    split at h
    · simp [*, ALookup]
    · simp [*, ALookup, ih h]

theorem ALookup_AUpdate_ne {κ ν : Type} [DecidableEq κ] {l : List (κ × ν)}
    {k k' : κ} (v : ν) (h : k' ≠ k) :
    ALookup (AUpdate l k v) k' = ALookup l k' := by
  induction l with
  | nil => simp [AUpdate]
  | cons p rest ih =>
    obtain ⟨pk, pv⟩ := p
    simp only [AUpdate]
    split
    · subst pk
      simp [ALookup, (by simpa [eq_comm] using h : ¬(k = k'))]
    · simp only [ALookup, ih]

theorem mem_AUpdate {κ ν : Type} [DecidableEq κ] {l : List (κ × ν)}
    {k k' : κ} {v v' : ν} (h : (k', v') ∈ AUpdate l k v) :
    (k' = k ∧ v' = v) ∨ (k', v') ∈ l := by
  induction l with
  | nil => simp [AUpdate] at h
  | cons p rest ih =>
    obtain ⟨pk, pv⟩ := p
    simp only [AUpdate] at h
    split at h
    · rcases List.mem_cons.mp h with h | h
      · left; exact ⟨congrArg Prod.fst h, congrArg Prod.snd h⟩
      · right; simp [h]
    · rcases List.mem_cons.mp h with h | h
      · right; simp [h]
      · rcases ih h with h | h
        · left; exact h
        · right; simp [h]

theorem keys_AUpdate {κ ν : Type} [DecidableEq κ] (l : List (κ × ν))
    (k : κ) (v : ν) {w : ν} (h : ALookup l k = some w) :
    (AUpdate l k v).map Prod.fst = l.map Prod.fst := by
  induction l with
  | nil => rfl
  | cons p rest ih =>
    obtain ⟨pk, pv⟩ := p
    simp only [ALookup, AUpdate] at h ⊢
    split at h
    · simp_all
    · simp_all

/-! ## Lemmas about the Go string comparison -/

theorem goCompare_self (a : GoStr) : goCompare a a = .eq := by
  induction a with
  | nil => rfl
  | cons c rest ih => simp [goCompare, ih]

theorem goCompare_swap (a b : GoStr) : goCompare b a = (goCompare a b).swap := by
  induction a generalizing b with
  | nil => cases b <;> rfl
  | cons c rest ih =>
    cases b with
    | nil => rfl
    | cons d bs =>
      simp only [goCompare]
      rcases Nat.lt_trichotomy c.toNat d.toNat with h | h | h
      · simp [h, Nat.not_lt.mpr (Nat.le_of_lt h), Ordering.swap]
      · simp [h, Nat.lt_irrefl, ih]
      · simp [h, Nat.not_lt.mpr (Nat.le_of_lt h), Ordering.swap]

theorem goLe_total (a b : GoStr) : goLe a b ∨ goLe b a := by
  unfold goLe
  rw [goCompare_swap a b]
  cases goCompare a b <;> simp [Ordering.swap]

theorem goLe_trans {a b c : GoStr} (h1 : goLe a b) (h2 : goLe b c) : goLe a c := by
  unfold goLe at *
  induction a generalizing b c with
  | nil => cases c <;> simp [goCompare]
  | cons x as ih =>
    cases b with
    | nil => simp [goCompare] at h1
    | cons y bs =>
      cases c with
      | nil => simp [goCompare] at h2
      | cons z cs =>
        simp only [goCompare] at h1 h2 ⊢
        rcases Nat.lt_trichotomy x.toNat y.toNat with hxy | hxy | hxy
        · rw [if_pos hxy] at h1
          rcases Nat.lt_trichotomy y.toNat z.toNat with hyz | hyz | hyz
          · rw [if_pos (by omega : x.toNat < z.toNat)]; simp
          · rw [if_pos (by omega : x.toNat < z.toNat)]; simp
          · rw [if_neg (by omega : ¬ y.toNat < z.toNat),
              if_pos hyz] at h2
            simp at h2
        · rw [if_neg (by omega : ¬ x.toNat < y.toNat),
            if_neg (by omega : ¬ y.toNat < x.toNat)] at h1
          rcases Nat.lt_trichotomy y.toNat z.toNat with hyz | hyz | hyz
          · rw [if_pos (by omega : x.toNat < z.toNat)]; simp
          · rw [if_neg (by omega : ¬ y.toNat < z.toNat),
              if_neg (by omega : ¬ z.toNat < y.toNat)] at h2
            rw [if_neg (by omega : ¬ x.toNat < z.toNat),
              if_neg (by omega : ¬ z.toNat < x.toNat)]
            exact ih h1 h2
          · rw [if_neg (by omega : ¬ y.toNat < z.toNat),
              if_pos hyz] at h2
            simp at h2
        · rw [if_neg (by omega : ¬ x.toNat < y.toNat), if_pos hxy] at h1
          simp at h1


/-! ## String table: claims C10 and C7 -/



theorem SSInv_new : SSInv NewStringSet := by
  constructor <;> rfl

theorem SSInv_insert {ss : StringSet} (h : SSInv ss) (w : GoStr) :
    SSInv (ss.Insert w).2 := by
  unfold StringSet.Insert
  obtain ⟨h1, h2⟩ := h
  cases hl : ALookup ss.strings w with
  | some i => exact ⟨h1, h2⟩
  | none =>
    refine ⟨?_, by simp [h2]⟩
    simp only [List.map_append, List.length_append, h1, h2]
    simp [List.range_succ]

theorem SSInv_applyInserts (ws : List GoStr) : SSInv (applyInserts ws) := by
  unfold applyInserts
  generalize hs : NewStringSet = ss0
  have h0 : SSInv ss0 := hs ▸ SSInv_new
  clear hs
  induction ws generalizing ss0 with
  | nil => exact h0
  | cons w rest ih => exact ih _ (SSInv_insert h0 w)

theorem applyInserts_append_one (ws : List GoStr) (w : GoStr) :
    applyInserts (ws ++ [w]) = ((applyInserts ws).Insert w).2 := by
  unfold applyInserts
  rw [List.foldl_append, List.foldl_cons, List.foldl_nil]

theorem lookup_insert_self (ss : StringSet) (s : GoStr) :
    ALookup ((ss.Insert s).2).strings s = some ((ss.Insert s).1) := by
  unfold StringSet.Insert
  cases hl : ALookup ss.strings s with
  | some i => simpa using hl
  | none =>
    simp only
    rw [ALookup_append_none _ hl]
    simp [ALookup]

theorem lookup_insert_mono {ss : StringSet} {s : GoStr} {i : Nat}
    (h : ALookup ss.strings s = some i) (w : GoStr) :
    ALookup ((ss.Insert w).2).strings s = some i := by
  unfold StringSet.Insert
  cases hl : ALookup ss.strings w with
  | some j => simpa using h
  | none => simpa using ALookup_append_some _ h

theorem lookup_applyInserts_mono {ws1 : List GoStr} {s : GoStr} {i : Nat}
    (h : ALookup (applyInserts ws1).strings s = some i) (ws2 : List GoStr) :
    ALookup (applyInserts (ws1 ++ ws2)).strings s = some i := by
  induction ws2 generalizing ws1 with
  | nil => simpa using h
  | cons w rest ih =>
    have heq : ws1 ++ w :: rest = (ws1 ++ [w]) ++ rest := by simp
    rw [heq]
    apply ih
    rw [applyInserts_append_one]
    exact lookup_insert_mono h w

theorem lookup_applyInserts_first (ws1 : List GoStr) (s : GoStr) (ws2 : List GoStr) :
    ALookup (applyInserts (ws1 ++ s :: ws2)).strings s =
      some ((applyInserts ws1).Insert s).1 := by
  have h1 : ALookup (applyInserts (ws1 ++ [s])).strings s =
      some ((applyInserts ws1).Insert s).1 := by
    rw [applyInserts_append_one]
    exact lookup_insert_self _ s
  have heq : ws1 ++ s :: ws2 = (ws1 ++ [s]) ++ ws2 := by simp
  rw [heq]
  exact lookup_applyInserts_mono h1 ws2

theorem insert_of_lookup_some {ss : StringSet} {s : GoStr} {i : Nat}
    (h : ALookup ss.strings s = some i) :
    ss.Insert s = (i, ss) := by
  unfold StringSet.Insert
  rw [h]

/-- When the key is absent the assigned index is the counter. -/
theorem insert_fresh_index {ss : StringSet} {s : GoStr}
    (h : ALookup ss.strings s = none) : (ss.Insert s).1 = ss.index := by
  unfold StringSet.Insert
  rw [h]

theorem foldl_set_get_of_not_mem (l : List (GoStr × Nat)) (sa : List GoStr)
    (i : Nat) (h : i ∉ l.map Prod.snd) :
    (l.foldl (fun sa p => sa.set p.2 p.1) sa).get? i = sa.get? i := by
  induction l generalizing sa with
  | nil => rfl
  | cons p rest ih =>
    simp only [List.map_cons, List.mem_cons] at h
    push_neg at h
    simp only [List.foldl_cons]
    rw [ih _ h.2, List.get?_set_ne _ _ (by exact fun hc => h.1 hc.symm)]

theorem foldl_set_get (l : List (GoStr × Nat)) (sa : List GoStr) (i : Nat)
    (s : GoStr) (hn : (l.map Prod.snd).Nodup) (hm : (s, i) ∈ l)
    (hlen : i < sa.length) :
    (l.foldl (fun sa p => sa.set p.2 p.1) sa).get? i = some s := by
  induction l generalizing sa with
  | nil => simp at hm
  | cons p rest ih =>
    simp only [List.map_cons, List.nodup_cons] at hn
    rcases List.mem_cons.mp hm with h | h
    · obtain rfl : p = (s, i) := h.symm
      simp only [List.foldl_cons]
      rw [foldl_set_get_of_not_mem _ _ _ (by simpa using hn.1)]
      exact List.get?_set_eq_of_lt _ (by simpa using hlen)
    · simp only [List.foldl_cons]
      exact ih _ hn.2 h (by simpa using hlen)



theorem lookup_applyInserts_mem {ws : List GoStr} {s : GoStr} (h : s ∈ ws) :
    ∃ i, ALookup (applyInserts ws).strings s = some i := by
  obtain ⟨ws1, ws2, rfl⟩ := List.append_of_mem h
  exact ⟨_, lookup_applyInserts_first ws1 s ws2⟩

theorem flatten_get {ss : StringSet} (hinv : SSInv ss) {s : GoStr} {i : Nat}
    (h : (s, i) ∈ ss.strings) : (ss.Flatten).1.get? i = some s := by
  unfold StringSet.Flatten
  obtain ⟨h1, _⟩ := hinv
  have hn : (ss.strings.map Prod.snd).Nodup := by
    rw [h1]; exact List.nodup_range _
  have hi : i < ss.strings.length := by
    have : i ∈ ss.strings.map Prod.snd := List.mem_map.mpr ⟨(s, i), h, rfl⟩
    rw [h1] at this
    exact List.mem_range.mp this
  exact foldl_set_get _ _ _ _ hn h (by simpa using hi)

/-- Claim C10: the string table is idempotent and flatten-consistent.  For
every insertion sequence and every string `s` inserted by it: re-inserting
`s` leaves the set unchanged and returns the stored index; that index is the
one assigned when `s` was first inserted (the counter value at that moment,
stable under all later insertions); and Flatten places `s` at that index. -/
theorem C10_stringset_flatten_insert (ws : List GoStr) (s : GoStr)
    (h : s ∈ ws) :
    ∃ i, ((applyInserts ws).Insert s).1 = i ∧
      ((applyInserts ws).Insert s).2 = applyInserts ws ∧
      (∀ ws1 ws2, ws = ws1 ++ s :: ws2 →
        i = ((applyInserts ws1).Insert s).1) ∧
      ((applyInserts ws).Flatten).1.get? i = some s := by
  obtain ⟨i, hl⟩ := lookup_applyInserts_mem h
  refine ⟨i, ?_, ?_, ?_, ?_⟩
  · rw [insert_of_lookup_some hl]
  · rw [insert_of_lookup_some hl]
  · intro ws1 ws2 hws
    subst hws
    have := lookup_applyInserts_first ws1 s ws2
    rw [hl] at this
    exact Option.some_inj.mp this
  · exact flatten_get (SSInv_applyInserts ws) (ALookup_mem hl)

/-- Witness for C10 at a concrete insertion sequence. -/
theorem C10_witness :
    ∃ i, ((applyInserts ["xy".data, "ab".data, "xy".data]).Insert "xy".data).1 = i ∧
      ((applyInserts ["xy".data, "ab".data, "xy".data]).Insert "xy".data).2 =
        applyInserts ["xy".data, "ab".data, "xy".data] ∧
      (∀ ws1 ws2, ["xy".data, "ab".data, "xy".data] = ws1 ++ "xy".data :: ws2 →
        i = ((applyInserts ws1).Insert "xy".data).1) ∧
      ((applyInserts ["xy".data, "ab".data, "xy".data]).Flatten).1.get? i =
        some "xy".data :=
  C10_stringset_flatten_insert _ _ (by simp)



theorem applyInserts_singleton (s : GoStr) :
    applyInserts [s] = ⟨[(s, 0)], 1⟩ := by
  unfold applyInserts
  simp only [List.foldl_cons, List.foldl_nil]
  unfold NewStringSet StringSet.Insert
  simp only [ALookup]
  rfl

theorem flatten_singleton (s : GoStr) :
    (StringSet.mk [(s, 0)] 1).Flatten = ([s], byteLen s) := by
  unfold StringSet.Flatten
  simp only [List.foldl_cons, List.foldl_nil, List.length_cons, List.length_nil]
  rw [Nat.zero_add]
  simp [List.replicate]

theorem byteLen_replicate_a (n : Nat) :
    byteLen (List.replicate n 'a') = n := by
  unfold byteLen
  rw [List.map_replicate]
  have h1 : 'a'.utf8Size = 1 := by decide
  rw [h1]
  simp [List.sum_replicate]

/-- Counterexample to claim C7 as stated: a set whose single string has byte
length exactly 2^16 - 1 neither exceeds 2^32 - 1 strings nor reaches a
maximum length of 2^16, yet Serialize fails (the source rejects a maximum
length at or above math.MaxUint16, which is 2^16 - 1). -/
theorem C7_counterexample :
    (∃ e, (applyInserts [List.replicate 65535 'a']).Serialize = .error e) ∧
    ¬((((applyInserts [List.replicate 65535 'a']).Flatten).1.length >
        2 ^ 32 - 1) ∨
      (((applyInserts [List.replicate 65535 'a']).Flatten).2 ≥ 2 ^ 16)) := by
  have hflat : (applyInserts [List.replicate 65535 'a']).Flatten =
      ([List.replicate 65535 'a'], 65535) := by
    rw [applyInserts_singleton, flatten_singleton, byteLen_replicate_a]
  constructor
  · refine ⟨"the capacity of the stringset exceeds disk format", ?_⟩
    unfold StringSet.Serialize
    rw [hflat]
    norm_num
  · rw [hflat]
    norm_num

/-- Claim C7 as amended: for every reachable string set, Serialize fails
exactly when the string count exceeds 2^32 - 1 or the maximum byte length is
at least 2^16 - 1 (not 2^16). -/
theorem C7_amended_serialize_bounds (ws : List GoStr) :
    (∃ e, (applyInserts ws).Serialize = .error e) ↔
      (((applyInserts ws).Flatten).1.length > 2 ^ 32 - 1 ∨
        ((applyInserts ws).Flatten).2 ≥ 2 ^ 16 - 1) := by
  unfold StringSet.Serialize
  rcases hf : (applyInserts ws).Flatten with ⟨strs, ml⟩
  dsimp only
  split_ifs with h
  · constructor
    · intro _
      rcases h with h | h
      · left; norm_num at h ⊢; omega
      · right; norm_num at h ⊢; omega
    · intro _
      exact ⟨_, rfl⟩
  · push_neg at h
    constructor
    · rintro ⟨e, he⟩
      simp at he
    · intro hq
      exfalso
      rcases hq with hq | hq
      · norm_num at hq
        omega
      · norm_num at hq
        omega



/-! ## Tokeniser: claim C3 -/

/-- Claim C3 evaluated at the failing input.  The source's span-closing
condition `!(unicode.IsLetter(r) && !unicode.IsDigit(r))` is true for a
digit, so a digit inside a word terminates the span: on "abc123" the
tokeniser emits the spans "abc" (bytes 0-3) and "2" (bytes 4-5) instead of
the single maximal span "abc123" (bytes 0-6) that the claim requires. -/
theorem C3_splitText_digit_breaks_span :
    splitText asciiIsLetter asciiIsDigit "abc123".data =
      [⟨0, 3⟩, ⟨4, 5⟩] ∧
    splitText asciiIsLetter asciiIsDigit "abc123".data ≠ [⟨0, 6⟩] := by
  constructor
  · rfl
  · decide

/-! ## Prefix trie: claim C8 -/

theorem nodeHas_empty (w : GoStr) : nodeHas (.mk false []) w = false := by
  cases w with
  | nil => rfl
  | cons c rest => rfl

theorem findNode_cons (iw : Bool) (ch : List (Char × TrieNode)) (c : Char)
    (rest : GoStr) :
    findNode (.mk iw ch) (c :: rest) =
      match ALookup ch c with
      | none => none
      | some child => findNode child rest := rfl

theorem nodeHas_insert (v : GoStr) (n : TrieNode) (w : GoStr) :
    nodeHas (insertNode n v).1 w = true ↔ (w = v ∨ nodeHas n w = true) := by
  induction v generalizing n w with
  | nil =>
    obtain ⟨iw, ch⟩ := n
    cases w with
    | nil => simp [insertNode, nodeHas, findNode, TrieNode.isWord]
    | cons c wr =>
      simp only [insertNode, nodeHas, findNode_cons]
      constructor
      · intro h; right; exact h
      · rintro (h | h)
        · exact absurd h (by simp)
        · exact h
  | cons d vr ih =>
    obtain ⟨iw, ch⟩ := n
    simp only [insertNode]
    cases hl : ALookup ch d with
    | some child =>
      simp only
      cases w with
      | nil =>
        simp only [nodeHas, findNode, TrieNode.isWord]
        constructor
        · intro h; right; exact h
        · rintro (h | h)
          · exact absurd h (by simp)
          · exact h
      | cons c wr =>
        simp only [nodeHas, findNode_cons]
        by_cases hc : c = d
        · subst hc
          rw [ALookup_AUpdate_self _ hl, hl]
          have := ih (n := child) (w := wr)
          simp only [nodeHas] at this
          rw [this]
          simp [List.cons_eq_cons]
        · rw [ALookup_AUpdate_ne _ hc]
          simp [List.cons_eq_cons, hc]
    | none =>
      simp only
      cases w with
      | nil =>
        simp only [nodeHas, findNode, TrieNode.isWord]
        constructor
        · intro h; right; exact h
        · rintro (h | h)
          · exact absurd h (by simp)
          · exact h
      | cons c wr =>
        simp only [nodeHas, findNode_cons]
        by_cases hc : c = d
        · subst hc
          rw [ALookup_append_none _ hl]
          have hone : ALookup [(c, (insertNode (.mk false []) vr).1)] c =
              some (insertNode (.mk false []) vr).1 := by
            simp [ALookup]
          rw [hone, hl]
          have := ih (n := TrieNode.mk false []) (w := wr)
          simp only [nodeHas] at this
          rw [this]
          have he : nodeHas (.mk false []) wr = false := nodeHas_empty wr
          simp only [nodeHas] at he
          rw [he]
          simp [List.cons_eq_cons]
        · have : ALookup (ch ++ [(d, (insertNode (.mk false []) vr).1)]) c =
              ALookup ch c := by
            cases hlc : ALookup ch c with
            | some m => exact ALookup_append_some _ hlc
            | none =>
              rw [ALookup_append_none _ hlc]
              have hdc : ¬ d = c := fun h => hc h.symm
              simp [ALookup, hdc]
          rw [this]
          simp [List.cons_eq_cons, hc]

theorem Trie_has_root (t : Trie) (w : GoStr) : t.Has w = nodeHas t.Root w := rfl

theorem buildTrie_root_foldl (ws : List GoStr) :
    (buildTrie ws).Root = ws.foldl (fun r w => (insertNode r w).1) NewTrie.Root := by
  unfold buildTrie
  generalize NewTrie = t0
  induction ws generalizing t0 with
  | nil => rfl
  | cons w rest ih =>
    simp only [List.foldl_cons]
    rw [ih]
    rfl

theorem nodeHas_foldl_insert (ws : List GoStr) (r : TrieNode) (w : GoStr) :
    nodeHas (ws.foldl (fun r w => (insertNode r w).1) r) w = true ↔
      (w ∈ ws ∨ nodeHas r w = true) := by
  induction ws generalizing r with
  | nil => simp
  | cons v rest ih =>
    simp only [List.foldl_cons, ih, nodeHas_insert, List.mem_cons]
    tauto

theorem buildTrie_has (ws : List GoStr) (w : GoStr) :
    (buildTrie ws).Has w = true ↔ w ∈ ws := by
  rw [Trie_has_root, buildTrie_root_foldl, nodeHas_foldl_insert]
  have : nodeHas NewTrie.Root w = false := nodeHas_empty w
  simp [this]



theorem wfChildren_iff (ch : List (Char × TrieNode)) :
    wfChildren ch ↔ ∀ p ∈ ch, wfNode p.2 := by
  induction ch with
  | nil => simp [wfChildren]
  | cons p rest ih =>
    obtain ⟨c, n⟩ := p
    simp [wfChildren, ih]

theorem wfNode_empty : wfNode (.mk false []) := by
  unfold wfNode
  exact ⟨List.nodup_nil, by unfold wfChildren; trivial⟩

theorem wfNode_insert {n : TrieNode} (h : wfNode n) (v : GoStr) :
    wfNode (insertNode n v).1 := by
  induction v generalizing n with
  | nil =>
    obtain ⟨iw, ch⟩ := n
    unfold wfNode at h ⊢
    simpa [insertNode] using h
  | cons d vr ih =>
    obtain ⟨iw, ch⟩ := n
    unfold wfNode at h
    obtain ⟨hkeys, hch⟩ := h
    simp only [insertNode]
    cases hl : ALookup ch d with
    | some child =>
      have hcw : wfNode child := by
        rw [wfChildren_iff] at hch
        exact hch _ (ALookup_mem hl)
      unfold wfNode
      constructor
      · rw [keys_AUpdate _ _ _ hl]
        exact hkeys
      · rw [wfChildren_iff] at hch ⊢
        intro p hp
        rcases mem_AUpdate hp with ⟨h1, h2⟩ | hp2
        · rw [h2]
          exact ih hcw
        · exact hch _ hp2
    | none =>
      unfold wfNode
      constructor
      · simp only [List.map_append, List.map_cons, List.map_nil]
        rw [List.nodup_append]
        refine ⟨hkeys, List.nodup_singleton _, ?_⟩
        intro a ha
        simp only [List.mem_singleton]
        intro hb
        subst hb
        exact (ALookup_eq_none_iff.mp hl) ha
      · rw [wfChildren_iff] at hch ⊢
        intro p hp
        rcases List.mem_append.mp hp with hp1 | hp2
        · exact hch _ hp1
        · rcases List.mem_singleton.mp hp2 with rfl
          exact ih wfNode_empty

theorem wfNode_buildTrie (ws : List GoStr) : wfNode (buildTrie ws).Root := by
  rw [buildTrie_root_foldl]
  have h0 : wfNode NewTrie.Root := wfNode_empty
  generalize NewTrie.Root = r at h0 ⊢
  induction ws generalizing r with
  | nil => exact h0
  | cons w rest ih =>
    simp only [List.foldl_cons]
    exact ih _ (wfNode_insert h0 w)

theorem findNode_append (n : TrieNode) (p s : GoStr) :
    findNode n (p ++ s) = (findNode n p).bind (fun m => findNode m s) := by
  induction p generalizing n with
  | nil => simp [findNode]
  | cons c rest ih =>
    obtain ⟨iw, ch⟩ := n
    simp only [List.cons_append, findNode_cons]
    cases ALookup ch c with
    | none => rfl
    | some child => exact ih child

theorem lookup_of_mem_nodup {κ ν : Type} [DecidableEq κ] {ch : List (κ × ν)}
    {c : κ} {n : ν} (hnd : (ch.map Prod.fst).Nodup) (h : (c, n) ∈ ch) :
    ALookup ch c = some n := by
  induction ch with
  | nil => simp at h
  | cons p rest ih =>
    obtain ⟨pc, pn⟩ := p
    simp only [List.map_cons, List.nodup_cons] at hnd
    rcases List.mem_cons.mp h with h1 | h1
    · obtain ⟨rfl, rfl⟩ := Prod.mk.injEq .. ▸ h1
      simp [ALookup]
    · have hne : pc ≠ c := by
        intro hcc
        subst hcc
        exact hnd.1 (List.mem_map.mpr ⟨(pc, n), h1, rfl⟩)
      simp only [ALookup, if_neg hne]
      exact ih hnd.2 h1



theorem wfNode_findNode {n : TrieNode} (hwf : wfNode n) (p : GoStr)
    {m : TrieNode} (h : findNode n p = some m) : wfNode m := by
  induction p generalizing n with
  | nil =>
    simp only [findNode] at h
    obtain rfl := Option.some_inj.mp h
    exact hwf
  | cons c rest ih =>
    obtain ⟨iw, ch⟩ := n
    simp only [findNode_cons] at h
    cases hl : ALookup ch c with
    | none => rw [hl] at h; exact absurd h (by simp)
    | some child =>
      rw [hl] at h
      have hcw : wfNode child := by
        unfold wfNode at hwf
        rw [wfChildren_iff] at hwf
        exact hwf.2 _ (ALookup_mem hl)
      exact ih hcw h


mutual
theorem mem_collectWords (n : TrieNode) (pfx w : GoStr) (hwf : wfNode n) :
    w ∈ collectWords n pfx ↔ ∃ s, w = pfx ++ s ∧ nodeHas n s = true := by
  match n with
  | .mk iw ch =>
    have hch : wfChildren ch := by
      unfold wfNode at hwf
      exact hwf.2
    have hkeys : (ch.map Prod.fst).Nodup := by
      unfold wfNode at hwf
      exact hwf.1
    simp only [collectWords, List.mem_append]
    rw [mem_collectChildren ch pfx w hch]
    constructor
    · rintro (h | ⟨c, m, hm, s, rfl, hs⟩)
      · refine ⟨[], ?_, ?_⟩
        · cases iw <;> simp_all
        · cases iw <;> simp_all [nodeHas, findNode, TrieNode.isWord]
      · refine ⟨c :: s, by simp, ?_⟩
        simp only [nodeHas, findNode_cons, lookup_of_mem_nodup hkeys hm]
        simpa [nodeHas] using hs
    · rintro ⟨s, rfl, hs⟩
      cases s with
      | nil =>
        left
        simp only [nodeHas, findNode, TrieNode.isWord] at hs
        simp [hs]
      | cons c sr =>
        right
        simp only [nodeHas, findNode_cons] at hs
        cases hl : ALookup ch c with
        | none => rw [hl] at hs; simp at hs
        | some m =>
          rw [hl] at hs
          exact ⟨c, m, ALookup_mem hl, sr, by simp, by simpa [nodeHas] using hs⟩
theorem mem_collectChildren (ch : List (Char × TrieNode)) (pfx w : GoStr)
    (hwf : wfChildren ch) :
    w ∈ collectChildren ch pfx ↔
      ∃ c n, (c, n) ∈ ch ∧ ∃ s, w = pfx ++ [c] ++ s ∧ nodeHas n s = true := by
  match ch with
  | [] => simp [collectChildren]
  | (c, n) :: rest =>
    have hn : wfNode n := by
      unfold wfChildren at hwf
      exact hwf.1
    have hrest : wfChildren rest := by
      unfold wfChildren at hwf
      exact hwf.2
    simp only [collectChildren, List.mem_append]
    rw [mem_collectWords n (pfx ++ [c]) w hn, mem_collectChildren rest pfx w hrest]
    constructor
    · rintro (⟨s, rfl, hs⟩ | ⟨c', n', hm, s, rfl, hs⟩)
      · exact ⟨c, n, by simp, s, by simp, hs⟩
      · exact ⟨c', n', by simp [hm], s, rfl, hs⟩
    · rintro ⟨c', n', hm, s, rfl, hs⟩
      rcases List.mem_cons.mp hm with h | h
      · obtain ⟨rfl, rfl⟩ := Prod.mk.injEq .. ▸ h
        left
        exact ⟨s, by simp, hs⟩
      · right
        exact ⟨c', n', h, s, rfl, hs⟩
end

/-- Claim C8: after inserting the words of a set into a fresh trie, Has finds
exactly the inserted words, and WithPrefix returns, as a set, exactly the
inserted words that start with the given string (so the empty string returns
every inserted word, and a string reaching no node returns nothing). -/
theorem C8_trie_has_withPrefix (ws : List GoStr) :
    (∀ w ∈ ws, (buildTrie ws).Has w = true) ∧
    (∀ p w, w ∈ Trie.WithPrefix (buildTrie ws) p ↔
      (w ∈ ws ∧ p.isPrefixOf w)) := by
  constructor
  · intro w hw
    exact (buildTrie_has ws w).mpr hw
  · intro p w
    unfold Trie.WithPrefix
    cases hfind : findNode (buildTrie ws).Root p with
    | none =>
      simp only [List.not_mem_nil, false_iff]
      rintro ⟨hws, hpre⟩
      obtain ⟨s, rfl⟩ := List.isPrefixOf_iff_prefix.mp hpre
      have hhas : nodeHas (buildTrie ws).Root (p ++ s) = true := by
        rw [← Trie_has_root, buildTrie_has]
        exact hws
      unfold nodeHas at hhas
      rw [findNode_append, hfind] at hhas
      simp at hhas
    | some node =>
      have hwfn : wfNode node := wfNode_findNode (wfNode_buildTrie ws) p hfind
      rw [mem_collectWords node p w hwfn]
      constructor
      · rintro ⟨s, rfl, hs⟩
        constructor
        · rw [← buildTrie_has ws, Trie_has_root]
          unfold nodeHas
          rw [findNode_append, hfind]
          simpa [nodeHas] using hs
        · simp [List.isPrefixOf_iff_prefix]
      · rintro ⟨hws, hpre⟩
        obtain ⟨s, rfl⟩ := List.isPrefixOf_iff_prefix.mp hpre
        refine ⟨s, rfl, ?_⟩
        have hhas : nodeHas (buildTrie ws).Root (p ++ s) = true := by
          rw [← Trie_has_root, buildTrie_has]
          exact hws
        unfold nodeHas at hhas ⊢
        rw [findNode_append, hfind] at hhas
        simpa using hhas



/-- Witness for C8 at a concrete word set: Has finds an inserted word, a
word under a nonempty prefix is returned, and a non-member is not. -/
theorem C8_witness :
    (buildTrie ["apple".data, "app".data, "banana".data]).Has "app".data = true ∧
    ("apple".data ∈
      Trie.WithPrefix (buildTrie ["apple".data, "app".data, "banana".data])
        "app".data) ∧
    ("banana".data ∉
      Trie.WithPrefix (buildTrie ["apple".data, "app".data, "banana".data])
        "app".data) := by
  refine ⟨(C8_trie_has_withPrefix _).1 _ (by simp), ?_, ?_⟩
  · exact ((C8_trie_has_withPrefix _).2 _ _).mpr (by constructor <;> decide)
  · intro hmem
    have := ((C8_trie_has_withPrefix _).2 "app".data "banana".data).mp hmem
    revert this
    decide



/-! ## Trie serialisation: claim C9 -/


theorem ALookup_perm {κ ν : Type} [DecidableEq κ] {l l' : List (κ × ν)}
    (hp : l.Perm l') (hnd : (l.map Prod.fst).Nodup) (c : κ) :
    ALookup l c = ALookup l' c := by
  have hnd' : (l'.map Prod.fst).Nodup := ((hp.map Prod.fst).nodup_iff).mp hnd
  cases hl : ALookup l c with
  | some v =>
    exact (lookup_of_mem_nodup hnd' (hp.mem_iff.mp (ALookup_mem hl))).symm
  | none =>
    cases hl' : ALookup l' c with
    | none => rfl
    | some v =>
      exfalso
      have := ALookup_eq_none_iff.mp hl
      exact this (List.mem_map.mpr ⟨(c, v), hp.mem_iff.mpr (ALookup_mem hl'), rfl⟩)

theorem boundChildren_iff (ch : List (Char × TrieNode)) :
    boundChildren ch = true ↔ ∀ p ∈ ch, boundNode p.2 = true := by
  induction ch with
  | nil => simp [boundChildren]
  | cons p rest ih =>
    obtain ⟨c, n⟩ := p
    simp [boundChildren, ih, Bool.and_eq_true]

theorem wfChildren_perm {ch ch' : List (Char × TrieNode)} (hp : ch.Perm ch')
    (h : wfChildren ch) : wfChildren ch' := by
  rw [wfChildren_iff] at h ⊢
  intro p hpmem
  exact h p (hp.mem_iff.mpr hpmem)

theorem boundChildren_perm {ch ch' : List (Char × TrieNode)} (hp : ch.Perm ch')
    (h : boundChildren ch = true) : boundChildren ch' = true := by
  rw [boundChildren_iff] at h ⊢
  intro p hpmem
  exact h p (hp.mem_iff.mpr hpmem)

/-- The serialised stream of a node is never empty (it starts with the
terminal-flag byte), giving the fuel arithmetic below. -/
theorem serializeNode_length_pos (n : TrieNode) :
    0 < (serializeNode n).length := by
  obtain ⟨iw, ch⟩ := n
  rw [serializeNode]
  simp

theorem serializeChildren_cons_length (c : Char) (n : TrieNode)
    (rest : List (Char × TrieNode)) :
    (serializeChildren ((c, n) :: rest)).length =
      1 + (serializeNode n).length + (serializeChildren rest).length := by
  rw [serializeChildren]
  simp
  omega

theorem serializeNode_mk_length (iw : Bool) (ch : List (Char × TrieNode)) :
    (serializeNode (.mk iw ch)).length =
      3 + (serializeChildren (List.insertionSort entryLe ch)).length := by
  rw [serializeNode]
  simp
  omega

/-- Lookup correspondence between two children lists aligned pointwise by
key with Has-equivalent subtrees. -/
theorem ALookup_forall2 {ch ch' : List (Char × TrieNode)}
    (h : List.Forall₂
      (fun p q => p.1 = q.1 ∧ ∀ w, nodeHas q.2 w = nodeHas p.2 w) ch ch')
    (c : Char) :
    (ALookup ch c = none ∧ ALookup ch' c = none) ∨
    (∃ pn qn, ALookup ch c = some pn ∧ ALookup ch' c = some qn ∧
      ∀ w, nodeHas qn w = nodeHas pn w) := by
  induction h with
  | nil => left; exact ⟨rfl, rfl⟩
  | cons hpq hrest ih =>
    rename_i p q l1 l2
    obtain ⟨pc, pn⟩ := p
    obtain ⟨qc, qn⟩ := q
    obtain ⟨h1, h2⟩ := hpq
    obtain rfl : pc = qc := h1
    by_cases hc : pc = c
    · right
      exact ⟨pn, qn, by simp [ALookup, hc], by simp [ALookup, hc], h2⟩
    · simp only [ALookup, if_neg hc]
      exact ih

/-- Values aligned pointwise by key with Has-equivalent subtrees produce the
same lookup behaviour, hence the same nodeHas at the parent. -/
theorem nodeHas_forall2 {ch ch' : List (Char × TrieNode)}
    (h : List.Forall₂
      (fun p q => p.1 = q.1 ∧ ∀ w, nodeHas q.2 w = nodeHas p.2 w) ch ch')
    (iw : Bool) (w : GoStr) :
    nodeHas (.mk iw ch') w = nodeHas (.mk iw ch) w := by
  cases w with
  | nil => rfl
  | cons c wr =>
    simp only [nodeHas, findNode_cons]
    rcases ALookup_forall2 h c with ⟨h1, h2⟩ | ⟨pn, qn, h1, h2, h3⟩
    · rw [h1, h2]
    · rw [h1, h2]
      have := h3 wr
      simpa [nodeHas] using this

theorem nodeHas_sortChildren (iw : Bool) (ch : List (Char × TrieNode))
    (hnd : (ch.map Prod.fst).Nodup) (w : GoStr) :
    nodeHas (.mk iw (List.insertionSort entryLe ch)) w = nodeHas (.mk iw ch) w := by
  cases w with
  | nil => rfl
  | cons c wr =>
    simp only [nodeHas, findNode_cons]
    rw [ALookup_perm (List.perm_insertionSort entryLe ch) ?_ c]
    · rw [((List.perm_insertionSort entryLe ch).map Prod.fst).nodup_iff]
      exact hnd



theorem roundtrip_fuel (fuel : Nat) : NodeRT fuel ∧ ChildRT fuel := by
  induction fuel with
  | zero =>
    constructor
    · intro n rest _ _ hlen
      exact absurd hlen (by omega)
    · intro chs rest _ _ hlen
      exact absurd hlen (by omega)
  | succ f ih =>
    have hnode : NodeRT (f + 1) := by
      intro n rest hwf hb hlen
      obtain ⟨iw, ch⟩ := n
      have hkeys : (ch.map Prod.fst).Nodup := by
        unfold wfNode at hwf
        exact hwf.1
      have hwfch : wfChildren ch := by
        unfold wfNode at hwf
        exact hwf.2
      have hcount : ch.length < 65536 := by
        rw [boundNode, Bool.and_eq_true] at hb
        simpa using hb.1
      have hbch : boundChildren ch = true := by
        rw [boundNode, Bool.and_eq_true] at hb
        exact hb.2
      have hperm : (List.insertionSort entryLe ch).Perm ch :=
        List.perm_insertionSort entryLe ch
      have hwfs : wfChildren (List.insertionSort entryLe ch) :=
        wfChildren_perm hperm.symm hwfch
      have hbs : boundChildren (List.insertionSort entryLe ch) = true :=
        boundChildren_perm hperm.symm hbch
      have hlen' : (serializeChildren (List.insertionSort entryLe ch)).length < f := by
        rw [serializeNode_mk_length] at hlen
        omega
      obtain ⟨chs', hdes, hf2⟩ :=
        ih.2 (List.insertionSort entryLe ch) rest hwfs hbs hlen'
      refine ⟨.mk iw chs', ?_, ?_⟩
      · rw [serializeNode]
        simp only [List.cons_append]
        rw [deserializeNode]
        simp only [readBool, readU16]
        have hlensort : (List.insertionSort entryLe ch).length = ch.length :=
          hperm.length_eq
        have harith : ch.length % 65536 / 256 * 256 + ch.length % 256 =
            ch.length := by
          omega
        rw [harith]
        rw [hlensort] at hdes
        rw [hdes]
        cases iw <;> simp
      · intro w
        rw [nodeHas_forall2 hf2 iw w]
        exact nodeHas_sortChildren iw ch hkeys w
    refine ⟨hnode, ?_⟩
    intro chs
    induction chs with
    | nil =>
      intro rest _ _ _
      refine ⟨[], ?_, List.Forall₂.nil⟩
      rw [serializeChildren]
      simp only [List.length_nil, List.nil_append]
      rw [deserializeChildren]
    | cons p rest' ihc =>
      obtain ⟨c, n⟩ := p
      intro rest hwf hb hlen
      have hn : wfNode n := by
        unfold wfChildren at hwf
        exact hwf.1
      have hrest' : wfChildren rest' := by
        unfold wfChildren at hwf
        exact hwf.2
      have hbn : boundNode n = true := by
        rw [boundChildren, Bool.and_eq_true] at hb
        exact hb.1
      have hbrest' : boundChildren rest' = true := by
        rw [boundChildren, Bool.and_eq_true] at hb
        exact hb.2
      rw [serializeChildren_cons_length] at hlen
      obtain ⟨n', hdesn, hequiv⟩ :=
        hnode n (serializeChildren rest' ++ rest) hn hbn (by omega)
      obtain ⟨chs'', hdesc, hf2⟩ := ihc rest hrest' hbrest' (by omega)
      refine ⟨(c, n') :: chs'', ?_, List.Forall₂.cons ⟨rfl, hequiv⟩ hf2⟩
      rw [serializeChildren]
      simp only [List.length_cons, List.cons_append, List.append_assoc]
      rw [deserializeChildren]
      simp only [readRune]
      rw [hdesn, hdesc]



theorem readU32_encode32 (k : Nat) (h : k < 4294967296) (rest : List Tok) :
    readU32 ((encode32 k).map Tok.byte ++ rest) = (k, rest) := by
  simp only [encode32, List.map_cons, List.map_nil, List.cons_append,
    List.nil_append]
  rw [readU32]
  simp only [Prod.mk.injEq]
  refine ⟨by omega, by simp⟩

/-- Claim C9 as amended: serialising a trie built by InsertWord calls and
deserialising the result preserves Has, provided the trie fits the file
format: fewer than 2^16 children at every node (the count is written as a
uint16) and a node count below 2^32 (otherwise Serialize panics). -/
theorem C9_amended_roundtrip (ws : List GoStr) (w : GoStr)
    (hb : boundNode (buildTrie ws).Root = true)
    (hn : (buildTrie ws).N < 4294967296) :
    ∃ toks t', Trie.Serialize (buildTrie ws) = some toks ∧
      DeserializeTrie toks = some t' ∧ t'.Has w = (buildTrie ws).Has w := by
  have hser : Trie.Serialize (buildTrie ws) = some
      ((encode32 trieMagic ++ encode32 1 ++
        encode32 (buildTrie ws).N).map Tok.byte ++
        serializeNode (buildTrie ws).Root) := by
    unfold Trie.Serialize
    rw [if_pos hn]
  have hlen12 : ((encode32 trieMagic ++ encode32 1 ++
      encode32 (buildTrie ws).N).map Tok.byte ++
      serializeNode (buildTrie ws).Root).length =
      12 + (serializeNode (buildTrie ws).Root).length := by
    simp [encode32]
    omega
  have hmag : trieMagic < 4294967296 := by norm_num [trieMagic]
  obtain ⟨n', hdes, hequiv⟩ :=
    (roundtrip_fuel (((encode32 trieMagic ++ encode32 1 ++
      encode32 (buildTrie ws).N).map Tok.byte ++
      serializeNode (buildTrie ws).Root).length + 1)).1
      (buildTrie ws).Root [] (wfNode_buildTrie ws) hb (by omega)
  rw [List.append_nil] at hdes
  refine ⟨_, ⟨n', (buildTrie ws).N⟩, hser, ?_, ?_⟩
  · have hsplit : (encode32 trieMagic ++ encode32 1 ++
        encode32 (buildTrie ws).N).map Tok.byte ++
        serializeNode (buildTrie ws).Root =
        (encode32 trieMagic).map Tok.byte ++ ((encode32 1).map Tok.byte ++
          ((encode32 (buildTrie ws).N).map Tok.byte ++
            serializeNode (buildTrie ws).Root)) := by
      simp [List.map_append]
    unfold DeserializeTrie
    rw [hsplit] at hdes ⊢
    simp only [readU32_encode32 _ hmag,
      readU32_encode32 _ (by norm_num : (1 : Nat) < 4294967296),
      readU32_encode32 _ (by omega : (buildTrie ws).N < 4294967296)]
    split_ifs with hcond
    · rw [hdes]
    · simp at hcond
  · rw [Trie_has_root, Trie_has_root]
    exact hequiv w

/-- Witness for the amended C9 at a concrete trie. -/
theorem C9_amended_witness :
    ∃ toks t',
      Trie.Serialize (buildTrie ["apple".data, "ape".data]) = some toks ∧
      DeserializeTrie toks = some t' ∧
      t'.Has "apple".data =
        (buildTrie ["apple".data, "ape".data]).Has "apple".data :=
  C9_amended_roundtrip ["apple".data, "ape".data] "apple".data (by decide)
    (by decide)



theorem char_toNat_ofNat {n : Nat} (hv : n.isValidChar) :
    (Char.ofNat n).toNat = n := by
  simp [Char.ofNat, hv, Char.ofNatAux, Char.toNat, UInt32.toNat,
    BitVec.toNat_ofNatLt]

theorem ALookup_map_of_mem {ν : Type} {cs : List Char} {a : Char}
    (f : Char → ν) (h : a ∈ cs) :
    ALookup (cs.map fun c => (c, f c)) a = some (f a) := by
  induction cs with
  | nil => simp at h
  | cons c rest ih =>
    simp only [List.map_cons, ALookup]
    by_cases hc : c = a
    · subst hc
      simp
    · rw [if_neg hc]
      exact ih (by rcases List.mem_cons.mp h with h | h
                   · exact absurd h.symm hc
                   · exact h)

theorem ALookup_map_of_not_mem {ν : Type} {cs : List Char} {a : Char}
    (f : Char → ν) (h : a ∉ cs) :
    ALookup (cs.map fun c => (c, f c)) a = none := by
  induction cs with
  | nil => rfl
  | cons c rest ih =>
    simp only [List.map_cons, ALookup]
    rw [if_neg (by intro hc; exact h (hc ▸ List.mem_cons_self c rest))]
    exact ih (fun hm => h (List.mem_cons_of_mem c hm))

theorem bigChars_nodup : bigChars.Nodup := by
  unfold bigChars
  rw [List.nodup_append]
  refine ⟨?_, ?_, ?_⟩
  · apply List.Nodup.map_on ?_ (List.nodup_range _)
    intro x hx y hy hxy
    have hxv : x.isValidChar := Or.inl (by simpa using List.mem_range.mp hx)
    have hyv : y.isValidChar := Or.inl (by simpa using List.mem_range.mp hy)
    have := congrArg Char.toNat hxy
    rwa [char_toNat_ofNat hxv, char_toNat_ofNat hyv] at this
  · apply List.Nodup.map_on ?_ (List.nodup_range _)
    intro x hx y hy hxy
    have hxv : (57344 + x).isValidChar := by
      right
      have := List.mem_range.mp hx
      omega
    have hyv : (57344 + y).isValidChar := by
      right
      have := List.mem_range.mp hy
      omega
    have := congrArg Char.toNat hxy
    rw [char_toNat_ofNat hxv, char_toNat_ofNat hyv] at this
    omega
  · intro a ha hb
    obtain ⟨x, hx, rfl⟩ := List.mem_map.mp ha
    obtain ⟨y, hy, hxy⟩ := List.mem_map.mp hb
    have hxv : x.isValidChar := Or.inl (by simpa using List.mem_range.mp hx)
    have hyv : (57344 + y).isValidChar := by
      right
      have := List.mem_range.mp hy
      omega
    have := congrArg Char.toNat hxy
    rw [char_toNat_ofNat hyv, char_toNat_ofNat hxv] at this
    have hxr := List.mem_range.mp hx
    omega

theorem bigChars_length : bigChars.length = 65536 := by
  unfold bigChars
  simp

theorem mem_bigChars_a : 'a' ∈ bigChars := by
  unfold bigChars
  apply List.mem_append_left
  exact List.mem_map.mpr ⟨97, List.mem_range.mpr (by norm_num), by decide⟩

theorem buildTrie_singletons_aux (cs acc : List Char)
    (h : (acc ++ cs).Nodup) :
    List.foldl Trie.InsertWord
      ⟨.mk false (acc.map fun c => (c, .mk true [])), 1 + acc.length⟩
      (cs.map fun c => [c]) =
      ⟨.mk false ((acc ++ cs).map fun c => (c, .mk true [])),
        1 + (acc ++ cs).length⟩ := by
  induction cs generalizing acc with
  | nil => simp
  | cons c rest ih =>
    simp only [List.map_cons, List.foldl_cons]
    have hnotmem : c ∉ acc := by
      rw [List.nodup_append] at h
      intro hmem
      exact h.2.2 hmem (List.mem_cons_self c rest)
    have hstep : Trie.InsertWord
        ⟨.mk false (acc.map fun c => (c, .mk true [])), 1 + acc.length⟩ [c] =
        ⟨.mk false ((acc ++ [c]).map fun c => (c, .mk true [])),
          1 + (acc ++ [c]).length⟩ := by
      unfold Trie.InsertWord
      simp only [insertNode, ALookup_map_of_not_mem _ hnotmem]
      simp [List.map_append]
      omega
    rw [hstep]
    have hre : acc ++ c :: rest = (acc ++ [c]) ++ rest := by simp
    rw [hre] at h ⊢
    exact ih (acc ++ [c]) h

theorem buildTrie_bigWords :
    buildTrie bigWords =
      ⟨.mk false (bigChars.map fun c => (c, .mk true [])), 65537⟩ := by
  unfold buildTrie bigWords
  have := buildTrie_singletons_aux bigChars [] (by simpa using bigChars_nodup)
  simp only [List.nil_append] at this
  have hnew : NewTrie = ⟨.mk false (([] : List Char).map fun c => (c, TrieNode.mk true [])), 1 + ([] : List Char).length⟩ := by
    rfl
  rw [hnew, this, bigChars_length]



theorem deserializeNode_zeros (L : Nat) (tail : List Tok) :
    deserializeNode (L + 1) (.byte 0 :: .byte 0 :: .byte 0 :: tail) =
      (.mk false [], tail) := by
  rw [deserializeNode]
  simp [readBool, readU16, deserializeChildren]

/-- Counterexample to claim C9 as stated: the trie of the 65536 single-rune
words bigWords serialises (its 65537 nodes fit the header), but the root's
child count is written as uint16(65536) = 0, so deserialisation rebuilds a
childless root and membership is lost for every inserted word, here 'a'. -/
theorem C9_counterexample :
    ∃ toks t', Trie.Serialize (buildTrie bigWords) = some toks ∧
      DeserializeTrie toks = some t' ∧
      t'.Has ['a'] = false ∧ (buildTrie bigWords).Has ['a'] = true := by
  have hb := buildTrie_bigWords
  have hchlen : (bigChars.map fun c => (c, TrieNode.mk true [])).length = 65536 := by
    rw [List.length_map, bigChars_length]
  have hserN : serializeNode
      (TrieNode.mk false (bigChars.map fun c => (c, .mk true []))) =
      .byte 0 :: .byte 0 :: .byte 0 ::
        serializeChildren (List.insertionSort entryLe
          (bigChars.map fun c => (c, .mk true []))) := by
    rw [serializeNode, hchlen]
    rw [show (if false = true then 1 else 0) = 0 from rfl,
      show 65536 % 65536 / 256 = 0 from rfl,
      show 65536 % 256 = 0 from rfl]
  have hser : Trie.Serialize (buildTrie bigWords) = some
      ((encode32 trieMagic ++ encode32 1 ++ encode32 65537).map Tok.byte ++
        serializeNode (TrieNode.mk false
          (bigChars.map fun c => (c, .mk true [])))) := by
    rw [hb]
    unfold Trie.Serialize
    rw [if_pos (by norm_num)]
  refine ⟨_, ⟨.mk false [], 65537⟩, hser, ?_, ?_, ?_⟩
  · have hmag : trieMagic < 4294967296 := by norm_num [trieMagic]
    have hsplit : (encode32 trieMagic ++ encode32 1 ++
        encode32 65537).map Tok.byte ++
        serializeNode (TrieNode.mk false
          (bigChars.map fun c => (c, .mk true []))) =
        (encode32 trieMagic).map Tok.byte ++ ((encode32 1).map Tok.byte ++
          ((encode32 65537).map Tok.byte ++
            serializeNode (TrieNode.mk false
              (bigChars.map fun c => (c, .mk true []))))) := by
      simp [List.map_append]
    unfold DeserializeTrie
    rw [hsplit]
    simp only [readU32_encode32 _ hmag,
      readU32_encode32 _ (by norm_num : (1 : Nat) < 4294967296),
      readU32_encode32 _ (by norm_num : (65537 : Nat) < 4294967296)]
    split_ifs with hcond
    · rw [hserN]
      rw [deserializeNode_zeros]
    · simp at hcond
  · rfl
  · rw [hb]
    rw [Trie_has_root]
    simp only [nodeHas, findNode_cons, ALookup_map_of_mem _ mem_bigChars_a]
    rfl



/-! ## Query engine: claims C1, C2, C5; catalog: claim C4 -/


/-- Claim C1 evaluated at a failing input.  QueryIndex "skips" a stop word
with continue, but the stop word's pre-allocated per-term map stays empty and
still participates in intersectWordResults, which requires every key to be
present in every map: adding the stop word "the" to the query "hello" turns a
non-empty result into an empty one, so stop words do affect result
membership. -/
theorem C1_stop_word_kills_intersection :
    demoIndex.QueryIndex ["hello".data, "the".data] = .ok [] ∧
    demoIndex.QueryIndex ["hello".data] =
      .ok [⟨"f".data, [⟨"hello".data, 0⟩], 0⟩] := by
  constructor
  · rfl
  · rfl

/-- Claim C4 evaluated at a failing input.  In the build of demoCorpus the
file that failed to open ("a.email") receives no filename-table slot at all
(the merge loop skips it, so the table holds only two entries); the file
whose parse failed ("b.email") is treated as a success because the source
shadows its error variable, so it does get a slot and is counted in nDocs,
and its catalog directory entry is (36, 0), not (0, 0); the only (0, 0)
entry sits at directory index 2, beyond the filename table. -/
theorem C4_failed_file_gets_no_slot :
    (InjestFiles asciiIsLetter asciiIsDigit demoCorpus).1.filenames.strings =
      [("b.email".data, 0), ("c.email".data, 1)] ∧
    catalogOfflens (InjestFiles asciiIsLetter asciiIsDigit demoCorpus).1
      (InjestFiles asciiIsLetter asciiIsDigit demoCorpus).2 =
      [(36, 0), (36, 11), (0, 0)] ∧
    (InjestFiles asciiIsLetter asciiIsDigit demoCorpus).1.nDocs = 2 ∧
    (InjestFiles asciiIsLetter asciiIsDigit demoCorpus).1.wordIndex =
      [("hello".data, [⟨1, [0]⟩]), ("world".data, [⟨1, [6]⟩])] := by
  refine ⟨?_, ?_, ?_, ?_⟩ <;> rfl



theorem gatherKey_none_of_mem_empty (k : Nat) (v : List QueryWordMatch)
    {ms : List (List (Nat × List QueryWordMatch))} (h : [] ∈ ms) :
    gatherKey k v ms = none := by
  induction ms generalizing v with
  | nil => simp at h
  | cons m rest ih =>
    rcases List.mem_cons.mp h with h1 | h1
    · subst h1
      rfl
    · rw [gatherKey]
      cases ALookup m k with
      | none => rfl
      | some vs => exact ih _ h1

theorem intersect_empty_of_mem {results : List (List (Nat × List QueryWordMatch))}
    (h : [] ∈ results) : intersectWordResults results = [] := by
  cases results with
  | nil => rfl
  | cons first rest =>
    rcases List.mem_cons.mp h with h1 | h1
    · rw [← h1]
      rfl
    · unfold intersectWordResults
      rw [List.filterMap_eq_nil]
      intro e _
      rw [gatherKey_none_of_mem_empty _ _ h1]
      rfl

theorem empty_mem_buildQwres {idx : Index} {qs : List GoStr}
    (h : ∃ q ∈ qs, isStopWord (goToLower q) = false ∧
      ALookup idx.vocab (goToLower q) = none) :
    [] ∈ buildQwres idx qs := by
  induction qs with
  | nil => simp at h
  | cons q rest ih =>
    rw [buildQwres]
    by_cases hstop : isStopWord (goToLower q)
    · rw [if_pos hstop]
      exact List.mem_cons_self _ _
    · rw [if_neg hstop]
      cases hl : ALookup idx.vocab (goToLower q) with
      | none => exact List.mem_cons_self _ _
      | some ms =>
        obtain ⟨w, hw, hns, hnone⟩ := h
        rcases List.mem_cons.mp hw with rfl | hw2
        · rw [hl] at hnone
          exact absurd hnone (by simp)
        · exact List.mem_cons_of_mem _ (ih ⟨w, hw2, hns, hnone⟩)

/-- Claim C2: a query containing a non-stop-word term whose lower-cased form
is absent from the vocabulary returns an empty result list and no error,
whatever the term's position: the source breaks out of its term loop there,
leaving that term's map (and all later ones) empty, and intersection with an
empty map is empty. -/
theorem C2_absent_term_empty_results (idx : Index) (qs : List GoStr)
    (h : ∃ q ∈ qs, isStopWord (goToLower q) = false ∧
      ALookup idx.vocab (goToLower q) = none) :
    idx.QueryIndex qs = .ok [] := by
  unfold Index.QueryIndex
  simp only [intersect_empty_of_mem (empty_mem_buildQwres h)]
  rfl

/-- Witness for C2: the absent word "qwerty" empties the result of a query
that also contains the present word "hello". -/
theorem C2_witness :
    demoIndex.QueryIndex ["hello".data, "qwerty".data] = .ok [] :=
  C2_absent_term_empty_results demoIndex _
    ⟨"qwerty".data, by simp, by decide, by decide⟩



instance : IsTotal QueryWordMatch offsetLe :=
  ⟨fun a b => Nat.le_total a.Offset b.Offset⟩

instance : IsTrans QueryWordMatch offsetLe :=
  ⟨fun _ _ _ h1 h2 => Nat.le_trans h1 h2⟩

instance : IsTotal QueryResults resultLe := by
  constructor
  intro a b
  unfold resultLe
  rcases Nat.lt_trichotomy a.WordMatches.length b.WordMatches.length
    with h | h | h
  · right; left; exact h
  · rcases goLe_total a.Filename b.Filename with hg | hg
    · left; right; exact ⟨h, hg⟩
    · right; right; exact ⟨h.symm, hg⟩
  · left; left; exact h

instance : IsTrans QueryResults resultLe := by
  constructor
  intro a b c h1 h2
  unfold resultLe at *
  rcases h1 with h1 | ⟨h1e, h1g⟩
  · rcases h2 with h2 | ⟨h2e, h2g⟩
    · left; omega
    · left; omega
  · rcases h2 with h2 | ⟨h2e, h2g⟩
    · left; omega
    · right; exact ⟨h1e.trans h2e, goLe_trans h1g h2g⟩

/-- Claim C5: whatever QueryIndex returns, each file's record list is sorted
by ascending offset, and the files are sorted by descending total match
count with ties broken by ascending filename (the comparator resultLe is
exactly the source's SortFunc comparator being at most zero). -/
theorem C5_query_results_ordering (idx : Index) (qs : List GoStr)
    (res : List QueryResults) (h : idx.QueryIndex qs = .ok res) :
    List.Sorted resultLe res ∧
      ∀ r ∈ res, List.Sorted offsetLe r.WordMatches := by
  unfold Index.QueryIndex at h
  simp only [Except.ok.injEq] at h
  subst h
  constructor
  · exact List.sorted_insertionSort resultLe _
  · intro r hr
    rw [List.mem_insertionSort] at hr
    obtain ⟨e, he, rfl⟩ := List.mem_map.mp hr
    obtain ⟨e2, he2, rfl⟩ := List.mem_map.mp he
    exact List.sorted_insertionSort offsetLe _

/-- Witness for C5 at a concrete index and query. -/
theorem C5_witness :
    List.Sorted resultLe [QueryResults.mk "f".data [⟨"hello".data, 0⟩] 0] ∧
      ∀ r ∈ [QueryResults.mk "f".data [⟨"hello".data, 0⟩] 0],
        List.Sorted offsetLe r.WordMatches :=
  C5_query_results_ordering demoIndex ["hello".data] _ rfl



/-! ## Builder merge: claim C6 -/


/-- Spans are emitted with strictly increasing start offsets, and no start
precedes the pending position. -/
theorem splitTextAux_starts (isL isD : Char → Bool) (text : List Char)
    (i : Nat) (st : Option Nat) (hst : ∀ s, st = some s → s < i) :
    List.Pairwise (fun a b : Span => a.start < b.start)
      (splitTextAux isL isD text i st) ∧
    ∀ sp ∈ splitTextAux isL isD text i st,
      (match st with | some s => s ≤ sp.start | none => i ≤ sp.start) := by
  induction text generalizing i st with
  | nil =>
    cases st with
    | none => simp [splitTextAux]
    | some s => simp [splitTextAux]
  | cons c rest ih =>
    have hu : 1 ≤ c.utf8Size := Char.utf8Size_pos c
    cases st with
    | none =>
      rw [splitTextAux]
      split
      · have := ih (i + c.utf8Size) (some i) (by intro s hs; cases hs; omega)
        refine ⟨this.1, ?_⟩
        intro sp hsp
        have hb := this.2 sp hsp
        simp only at hb ⊢
        omega
      · have := ih (i + c.utf8Size) none (by intro s hs; cases hs)
        refine ⟨this.1, ?_⟩
        intro sp hsp
        have hb := this.2 sp hsp
        simp only at hb ⊢
        omega
    | some s =>
      have hsi : s < i := hst s rfl
      rw [splitTextAux]
      split
      · have := ih (i + c.utf8Size) none (by intro s hs; cases hs)
        constructor
        · rw [List.pairwise_cons]
          refine ⟨?_, this.1⟩
          intro sp hsp
          have hb := this.2 sp hsp
          simp only at hb ⊢
          omega
        · intro sp hsp
          rcases List.mem_cons.mp hsp with rfl | hsp
          · simp
          · have hb := this.2 sp hsp
            simp only at hb ⊢
            omega
      · have := ih (i + c.utf8Size) (some s) (by intro s' hs'; cases hs'; omega)
        refine ⟨this.1, ?_⟩
        intro sp hsp
        exact this.2 sp hsp

theorem splitText_starts (isL isD : Char → Bool) (text : List Char) :
    List.Pairwise (fun a b : Span => a.start < b.start)
      (splitText isL isD text) :=
  (splitTextAux_starts isL isD text 0 none (by intro s hs; cases hs)).1

/-- Invariant of the posting-accumulation fold of computeFileIndex: distinct
keys, strictly ascending offsets, and every stored offset below every
remaining span start. -/
theorem cfi_fold_inv (content : List Char)
    (spans : List Span) (index : List (GoStr × List Nat))
    (hsp : List.Pairwise (fun a b : Span => a.start < b.start) spans)
    (hkeys : (index.map Prod.fst).Nodup)
    (hvals : ∀ p ∈ index, List.Pairwise (· < ·) p.2 ∧
      ∀ o ∈ p.2, ∀ sp ∈ spans, o < sp.start) :
    (((spans.foldl (cfiStep content) index).map Prod.fst).Nodup ∧
      ∀ p ∈ spans.foldl (cfiStep content) index,
        List.Pairwise (· < ·) p.2) := by
  induction spans generalizing index with
  | nil =>
    refine ⟨hkeys, ?_⟩
    intro p hp
    exact (hvals p hp).1
  | cons sp rest ih =>
    rw [List.pairwise_cons] at hsp
    obtain ⟨hhead, hrest⟩ := hsp
    simp only [List.foldl_cons]
    rw [show cfiStep content index sp =
      (let word := sliceBytes content 0 sp.start sp.stop
       let txt := goToLower word
       if byteLen word < 3 then index
       else if isStopWord word then index
       else
         match ALookup index txt with
         | none => index ++ [(txt, [sp.start])]
         | some offs => AUpdate index txt (offs ++ [sp.start])) from rfl]
    set word := sliceBytes content 0 sp.start sp.stop with hword
    by_cases h3 : byteLen word < 3
    · simp only [if_pos h3]
      exact ih index hrest hkeys
        (fun p hp => ⟨(hvals p hp).1,
          fun o ho sp' hsp' => (hvals p hp).2 o ho sp' (List.mem_cons_of_mem _ hsp')⟩)
    · simp only [if_neg h3]
      by_cases hstop : isStopWord word = true
      · simp only [if_pos hstop]
        exact ih index hrest hkeys
          (fun p hp => ⟨(hvals p hp).1,
            fun o ho sp' hsp' => (hvals p hp).2 o ho sp' (List.mem_cons_of_mem _ hsp')⟩)
      · simp only [if_neg hstop]
        cases hl : ALookup index (goToLower word) with
        | none =>
          simp only [hl]
          apply ih
          · exact hrest
          · simp only [List.map_append, List.map_cons, List.map_nil]
            rw [List.nodup_append]
            refine ⟨hkeys, List.nodup_singleton _, ?_⟩
            intro a ha hb
            rcases List.mem_singleton.mp hb with rfl
            exact (ALookup_eq_none_iff.mp hl) ha
          · intro p hp
            rcases List.mem_append.mp hp with hp1 | hp2
            · exact ⟨(hvals p hp1).1,
                fun o ho sp' hsp' =>
                  (hvals p hp1).2 o ho sp' (List.mem_cons_of_mem _ hsp')⟩
            · rcases List.mem_singleton.mp hp2 with rfl
              refine ⟨List.pairwise_singleton _ _, ?_⟩
              intro o ho sp' hsp'
              rcases List.mem_singleton.mp ho with rfl
              exact hhead sp' hsp'
        | some offs =>
          simp only [hl]
          apply ih
          · exact hrest
          · rw [keys_AUpdate _ _ _ hl]
            exact hkeys
          · intro p hp
            rcases mem_AUpdate hp with ⟨hk, hv⟩ | hp2
            · rw [hv]
              have hin := hvals _ (ALookup_mem hl)
              constructor
              · rw [List.pairwise_append]
                refine ⟨hin.1, List.pairwise_singleton _ _, ?_⟩
                intro o ho o' ho'
                rcases List.mem_singleton.mp ho' with rfl
                exact hin.2 o ho sp (List.mem_cons_self _ _)
              · intro o ho sp' hsp'
                rcases List.mem_append.mp ho with ho1 | ho2
                · exact hin.2 o ho1 sp' (List.mem_cons_of_mem _ hsp')
                · rcases List.mem_singleton.mp ho2 with rfl
                  exact hhead sp' hsp'
            · exact ⟨(hvals p hp2).1,
                fun o ho sp' hsp' =>
                  (hvals p hp2).2 o ho sp' (List.mem_cons_of_mem _ hsp')⟩

/-- What C6 needs of one ingested file: distinct words, strictly ascending
posting offsets. -/
theorem computeFileIndex_inv (isL isD : Char → Bool) (content : List Char) :
    ((computeFileIndex isL isD content).map Prod.fst).Nodup ∧
    ∀ p ∈ computeFileIndex isL isD content, List.Pairwise (· < ·) p.2 := by
  unfold computeFileIndex
  exact cfi_fold_inv content (splitText isL isD content) []
    (splitText_starts isL isD content) (by simp) (by simp)




/-- The inner merge fold: every posting list keeps strictly ascending
filename indices bounded by the current file's index, provided the words of
the file are distinct and every word still to be merged has all its existing
matches strictly below the current index. -/
theorem mergeStep_fold (fidx : Nat) (entries : List (GoStr × List Nat))
    (st1 : BuilderState)
    (hekeys : (entries.map Prod.fst).Nodup)
    (hevals : ∀ e ∈ entries, List.Pairwise (· < ·) e.2)
    (hQ1 : ∀ p ∈ st1.wordIndex, List.Pairwise matchLt p.2 ∧
      ∀ m ∈ p.2, m.FilenameStringIndex ≤ fidx ∧ List.Pairwise (· < ·) m.Offsets)
    (hQ2 : ∀ e ∈ entries, ∀ p ∈ st1.wordIndex, p.1 = e.1 →
      ∀ m ∈ p.2, m.FilenameStringIndex < fidx) :
    (∀ p ∈ (entries.foldl (mergeStep fidx) st1).wordIndex,
      List.Pairwise matchLt p.2 ∧
      ∀ m ∈ p.2, m.FilenameStringIndex ≤ fidx ∧
        List.Pairwise (· < ·) m.Offsets) ∧
    (entries.foldl (mergeStep fidx) st1).filenames = st1.filenames := by
  induction entries generalizing st1 with
  | nil => exact ⟨hQ1, rfl⟩
  | cons e rest ih =>
    simp only [List.map_cons, List.nodup_cons] at hekeys
    simp only [List.foldl_cons]
    have hst2 : (mergeStep fidx st1 e).filenames = st1.filenames := by
      unfold mergeStep
      cases ALookup st1.wordIndex e.1 <;> rfl
    have hwi2 : (mergeStep fidx st1 e).wordIndex =
        match ALookup st1.wordIndex e.1 with
        | none => st1.wordIndex ++ [(e.1, [⟨fidx, e.2⟩])]
        | some ms => AUpdate st1.wordIndex e.1 (ms ++ [⟨fidx, e.2⟩]) := rfl
    have hnew1 : ∀ p ∈ (mergeStep fidx st1 e).wordIndex,
        List.Pairwise matchLt p.2 ∧
        ∀ m ∈ p.2, m.FilenameStringIndex ≤ fidx ∧
          List.Pairwise (· < ·) m.Offsets := by
      intro p hp
      rw [hwi2] at hp
      cases hl : ALookup st1.wordIndex e.1 with
      | none =>
        rw [hl] at hp
        rcases List.mem_append.mp hp with hp1 | hp2
        · exact hQ1 p hp1
        · rcases List.mem_singleton.mp hp2 with rfl
          refine ⟨List.pairwise_singleton _ _, ?_⟩
          intro m hm
          rcases List.mem_singleton.mp hm with rfl
          exact ⟨Nat.le_refl _, hevals e (List.mem_cons_self _ _)⟩
      | some ms =>
        rw [hl] at hp
        rcases mem_AUpdate hp with ⟨hk, hv⟩ | hp2
        · have hin := hQ1 _ (ALookup_mem hl)
          have hbelow : ∀ m ∈ ms, m.FilenameStringIndex < fidx :=
            hQ2 e (List.mem_cons_self _ _) _ (ALookup_mem hl) rfl
          rw [hv]
          constructor
          · rw [List.pairwise_append]
            refine ⟨hin.1, List.pairwise_singleton _ _, ?_⟩
            intro m hm m' hm'
            rcases List.mem_singleton.mp hm' with rfl
            exact hbelow m hm
          · intro m hm
            rcases List.mem_append.mp hm with hm1 | hm2
            · exact hin.2 m hm1
            · rcases List.mem_singleton.mp hm2 with rfl
              exact ⟨Nat.le_refl _, hevals e (List.mem_cons_self _ _)⟩
        · exact hQ1 p hp2
    have hnew2 : ∀ e' ∈ rest, ∀ p ∈ (mergeStep fidx st1 e).wordIndex,
        p.1 = e'.1 → ∀ m ∈ p.2, m.FilenameStringIndex < fidx := by
      intro e' he' p hp hpk
      rw [hwi2] at hp
      cases hl : ALookup st1.wordIndex e.1 with
      | none =>
        rw [hl] at hp
        rcases List.mem_append.mp hp with hp1 | hp2
        · exact hQ2 e' (List.mem_cons_of_mem _ he') p hp1 hpk
        · rcases List.mem_singleton.mp hp2 with rfl
          exfalso
          apply hekeys.1
          have hee : e.1 = e'.1 := hpk
          rw [hee]
          exact List.mem_map.mpr ⟨e', he', rfl⟩
      | some ms =>
        rw [hl] at hp
        rcases mem_AUpdate hp with ⟨hk, hv⟩ | hp2
        · exfalso
          apply hekeys.1
          have hee : e.1 = e'.1 := by rw [← hk]; exact hpk
          rw [hee]
          exact List.mem_map.mpr ⟨e', he', rfl⟩
        · exact hQ2 e' (List.mem_cons_of_mem _ he') p hp2 hpk
    have := ih (mergeStep fidx st1 e) hekeys.2
      (fun e' he' => hevals e' (List.mem_cons_of_mem _ he')) hnew1 hnew2
    exact ⟨this.1, this.2.trans hst2⟩




theorem MergeInFileIndex_inv (st : BuilderState)
    (fileIdx : List (GoStr × List Nat)) (filename : GoStr)
    (hinv : BInv st)
    (hfresh : ALookup st.filenames.strings filename = none)
    (hfkeys : (fileIdx.map Prod.fst).Nodup)
    (hfvals : ∀ p ∈ fileIdx, List.Pairwise (· < ·) p.2) :
    BInv (MergeInFileIndex st fileIdx filename) ∧
    (MergeInFileIndex st fileIdx filename).filenames.strings =
      st.filenames.strings ++ [(filename, st.filenames.strings.length)] := by
  obtain ⟨hss, hwi⟩ := hinv
  have hidx : st.filenames.index = st.filenames.strings.length := hss.2
  unfold MergeInFileIndex
  rw [show st.filenames.Insert filename =
      (st.filenames.index,
        ⟨st.filenames.strings ++ [(filename, st.filenames.index)],
          st.filenames.index + 1⟩) from by
    unfold StringSet.Insert
    rw [hfresh]]
  set st1 : BuilderState :=
    { st with filenames :=
        ⟨st.filenames.strings ++ [(filename, st.filenames.index)],
          st.filenames.index + 1⟩ } with hst1
  have hsorted := List.perm_insertionSort wordEntryLe fileIdx
  have hskeys : ((List.insertionSort wordEntryLe fileIdx).map Prod.fst).Nodup := by
    rw [(hsorted.map Prod.fst).nodup_iff]
    exact hfkeys
  have hsvals : ∀ e ∈ List.insertionSort wordEntryLe fileIdx,
      List.Pairwise (· < ·) e.2 :=
    fun e he => hfvals e (hsorted.mem_iff.mp he)
  have hfold := mergeStep_fold st.filenames.index
    (List.insertionSort wordEntryLe fileIdx) st1 hskeys hsvals
    (by
      intro p hp
      have := hwi p hp
      exact ⟨this.1, fun m hm => ⟨by
        have := (this.2 m hm).1
        omega, (this.2 m hm).2⟩⟩)
    (by
      intro e _ p hp _ m hm
      have := (hwi p hp).2 m hm
      omega)
  refine ⟨⟨?_, ?_⟩, ?_⟩
  · rw [hfold.2]
    have : st1.filenames = (st.filenames.Insert filename).2 := by
      rw [hst1]
      unfold StringSet.Insert
      rw [hfresh]
    rw [this]
    exact SSInv_insert hss filename
  · intro p hp
    have := hfold.1 p hp
    refine ⟨this.1, fun m hm => ⟨?_, (this.2 m hm).2⟩⟩
    have hle := (this.2 m hm).1
    rw [hfold.2]
    simp only [hst1]
    simp only [List.length_append, List.length_cons, List.length_nil]
    omega
  · rw [hfold.2]
    simp only [hst1]
    rw [hidx]



theorem injest_fold_inv (l : List InjestedFile) (st : BuilderState)
    (hinv : BInv st)
    (hnd : (l.map InjestedFile.Filename).Nodup)
    (hdisj : ∀ k ∈ st.filenames.strings.map Prod.fst,
      k ∉ l.map InjestedFile.Filename)
    (hidx : ∀ r ∈ l, (r.Index.map Prod.fst).Nodup ∧
      ∀ p ∈ r.Index, List.Pairwise (· < ·) p.2) :
    BInv (l.foldl injestMergeStep st) := by
  induction l generalizing st with
  | nil => exact hinv
  | cons r rest ih =>
    simp only [List.map_cons, List.nodup_cons] at hnd
    simp only [List.foldl_cons]
    by_cases herr : r.Err
    · rw [show injestMergeStep st r = st from by unfold injestMergeStep; rw [if_pos herr]]
      exact ih st hinv hnd.2
        (fun k hk => fun hmem => hdisj k hk (List.mem_cons_of_mem _ hmem))
        (fun r' hr' => hidx r' (List.mem_cons_of_mem _ hr'))
    · rw [show injestMergeStep st r =
          { MergeInFileIndex st r.Index r.Filename with
            nDocs := (MergeInFileIndex st r.Index r.Filename).nDocs + 1 } from by
        unfold injestMergeStep
        rw [if_neg herr]]
      have hfresh : ALookup st.filenames.strings r.Filename = none := by
        rw [ALookup_eq_none_iff]
        intro hmem
        exact hdisj _ hmem (List.mem_cons_self _ _)
      have hr := hidx r (List.mem_cons_self _ _)
      obtain ⟨hminv, hmstr⟩ :=
        MergeInFileIndex_inv st r.Index r.Filename hinv hfresh hr.1 hr.2
      apply ih
      · exact ⟨hminv.1, fun p hp => by
          have := hminv.2 p hp
          exact ⟨this.1, this.2⟩⟩
      · exact hnd.2
      · intro k hk
        simp only [hmstr, List.map_append, List.map_cons, List.map_nil] at hk
        rcases List.mem_append.mp hk with hk1 | hk2
        · exact fun hmem => hdisj k hk1 (List.mem_cons_of_mem _ hmem)
        · rcases List.mem_singleton.mp hk2 with rfl
          exact hnd.1
      · exact fun r' hr' => hidx r' (List.mem_cons_of_mem _ hr')

theorem injestWorker_filename (isL isD : Char → Bool) (f : GoStr)
    (c : FileContent) : (injestWorker isL isD f c).Filename = f := by
  cases c <;> rfl

theorem injestWorker_index (isL isD : Char → Bool) (f : GoStr)
    (c : FileContent) :
    ((injestWorker isL isD f c).Index.map Prod.fst).Nodup ∧
    ∀ p ∈ (injestWorker isL isD f c).Index, List.Pairwise (· < ·) p.2 := by
  cases c with
  | openFail => exact ⟨List.nodup_nil, by simp [injestWorker]⟩
  | parseFail => exact ⟨List.nodup_nil, by simp [injestWorker]⟩
  | body content gz => exact computeFileIndex_inv isL isD content

/-- Claim C6: in the inverted index built from a corpus with distinct
filenames, every word's match list is strictly ascending in filename index
(files merge in sorted filename order with dense index assignment), and
every match's offset list is strictly ascending (offsets are recorded in
source order of the spans). -/
theorem C6_wordIndex_ordering (isL isD : Char → Bool)
    (files : List (GoStr × FileContent))
    (hnd : (files.map Prod.fst).Nodup)
    (w : GoStr) (ms : List Match)
    (h : ALookup (InjestFiles isL isD files).1.wordIndex w = some ms) :
    List.Pairwise matchLt ms ∧
    ∀ m ∈ ms, List.Pairwise (· < ·) m.Offsets := by
  unfold InjestFiles at h
  set injested := List.insertionSort fileLe
    (files.map fun f => injestWorker isL isD f.1 f.2) with hinj
  have hperm : injested.Perm (files.map fun f => injestWorker isL isD f.1 f.2) :=
    List.perm_insertionSort fileLe _
  have hnames : ((files.map fun f => injestWorker isL isD f.1 f.2).map
      InjestedFile.Filename) = files.map Prod.fst := by
    rw [List.map_map]
    apply List.map_congr_left
    intro f _
    exact injestWorker_filename isL isD f.1 f.2
  have hndinj : (injested.map InjestedFile.Filename).Nodup := by
    rw [(hperm.map InjestedFile.Filename).nodup_iff, hnames]
    exact hnd
  have hidx : ∀ r ∈ injested, (r.Index.map Prod.fst).Nodup ∧
      ∀ p ∈ r.Index, List.Pairwise (· < ·) p.2 := by
    intro r hr
    have := hperm.mem_iff.mp hr
    obtain ⟨f, _, rfl⟩ := List.mem_map.mp this
    exact injestWorker_index isL isD f.1 f.2
  have hfinal : BInv (injested.foldl injestMergeStep initBuilder) := by
    apply injest_fold_inv
    · exact ⟨SSInv_new, by simp [initBuilder]⟩
    · exact hndinj
    · intro k hk
      simp [initBuilder, NewStringSet] at hk
    · exact hidx
  have := hfinal.2 _ (ALookup_mem h)
  exact ⟨this.1, fun m hm => (this.2 m hm).2⟩

/-- Witness for C6 at the concrete demo corpus. -/
theorem C6_witness :
    List.Pairwise matchLt [Match.mk 1 [0]] ∧
    ∀ m ∈ [Match.mk 1 [0]], List.Pairwise (· < ·) m.Offsets :=
  C6_wordIndex_ordering asciiIsLetter asciiIsDigit demoCorpus (by decide)
    "hello".data [Match.mk 1 [0]] rfl


end EmailSearch
